import Mathlib

/-!
Streaming event statistics (`src/websockets/webSocketEvents.go`).

A shallow embedding of the `Stats` aggregator: the state record, the helper
functions `maxTime`, `min`, `max`, `timeFromFloat64`, the bucket update
`saveHistory`, the message handler `collect`, the constructor `initStats` and
the rate `averagePerMinute`.

Modelling conventions.

* `time.Time` is an instant counted in nanoseconds since January 1, year 1,
  00:00:00 UTC (the origin of Go's internal representation), so the zero
  `time.Time` is the instant `0` and `IsZero` is equality with it.  The count
  is unbounded: the wrap-around of the library's `int64` seconds, some 292
  billion years away, is not modelled.
* `time.Duration` is a number of nanoseconds; `Time.Sub` saturates at the
  `int64` range exactly as the library does.
* Go `int` values are unbounded integers; no counter of the program gets near
  the machine range (a bucket key is at most `2^63 / 6e10` in absolute value).
* `float64` values are rationals (`ℚ`), and a conversion `int64(f)` is taken
  within its range.  The definitions named after the source
  (`Duration.Minutes`, `F64.div`, `averagePerMinute`, `timeFromFloat64`,
  `saveHistory`) compute without rounding.  Their twins with the suffix `F64`
  (`Duration.MinutesF64`, `F64.divF64`, `averagePerMinuteF64`,
  `minutesElapsedF64`, `saveHistoryF64`, `timeFromFloat64F64`, `eventTimeF64`)
  round every operation to binary64 with `roundF64` (to nearest, ties to even;
  overflow and subnormal numbers are not modelled), as the machine does.  The
  two agree on the bucket key for elapsed times below `2^18` minutes
  (`truncInt_MinutesF64`) and on timestamps of whole seconds
  (`eventTimeF64_whole_seconds`), which covers the concrete runs below; they
  differ beyond (`bucket_key_rounds_up_beyond_bound`, `eventTimeF64_fraction`)
  and on the quotient of `averagePerMinute`.  `F64` adds the infinities and
  the NaN that a division by zero produces.
* Go maps with `int` keys are association lists holding at most one pair per
  key; `len` is the length of the list.
* The wall-clock minute built at lines 92 and 93 of the source is
  `minuteIn localZone loc`: the date fields of `endedAt` read in the zone of
  the process, rebuilt by `time.Date` in the reference zone
  (`time.LoadLocation` is taken to succeed).  A zone is its table of offsets
  (`Location`); the civil calendar is not modelled.  The functions of the
  program take the wall-minute function as the parameter `wallMinute`, so that
  what does not depend on it is stated for every pair of zones;
  `sameZoneMinute`, the truncation to the minute, is its value when the process
  runs in the reference zone at a fixed offset of whole minutes
  (`minuteIn_same_fixedZone`), and not in general (`fall_back_hour_is_moved`).
* `json.Unmarshal` is a library function; its outcome is the parameter
  `unmarshal`.
* `summarize` only logs; the logging of `collect` and `summarize` is left out.
-/

namespace WebSocketEvents

/-! ## Library types: time -/

/-- Instant in time (`time.Time`): nanoseconds since 0001-01-01 00:00:00 UTC. -/
structure Time where
  ns : Int
  deriving DecidableEq, Repr

/-- Elapsed time (`time.Duration`): nanoseconds, within the `int64` range. -/
abbrev Duration := Int

/-- One minute as a `Duration`. -/
def Minute : Int := 60000000000

/-- Smallest `Duration`: `-1 << 63`. -/
def minDuration : Int := -9223372036854775808

/-- Largest `Duration`: `1<<63 - 1`. -/
def maxDuration : Int := 9223372036854775807

/-- Seconds from year 1 to the Unix epoch (`unixToInternal` of package `time`). -/
def unixToInternal : Int := 62135596800

/-- The zero value of `time.Time`. -/
def Time.zero : Time := ⟨0⟩

/-- `t.IsZero()`: the instant is January 1, year 1, 00:00:00 UTC. -/
def Time.IsZero (t : Time) : Bool := decide (t.ns = 0)

/-- `t.After(u)`. -/
def Time.After (t u : Time) : Bool := decide (u.ns < t.ns)

/-- `t.Sub(u)`: the duration `t - u`, saturated to the range of `Duration`. -/
def Time.Sub (t u : Time) : Duration :=
  let d := t.ns - u.ns
  if d < minDuration then minDuration
  else if maxDuration < d then maxDuration
  else d

/-- `time.Unix(sec, nsec)`: the instant `sec` seconds and `nsec` nanoseconds
after the Unix epoch. -/
def Time.Unix (sec nsec : Int) : Time :=
  ⟨(sec + unixToInternal) * 1000000000 + nsec⟩

/-- Go conversion `int64(f)` / `int(f)` of a finite float: truncation toward zero. -/
def truncInt (q : ℚ) : Int := if 0 ≤ q then ⌊q⌋ else ⌈q⌉

/-- `d.Minutes()`: `float64(d / Minute) + float64(d % Minute) / (60 * 1e9)`,
with Go's truncated integer division and remainder, computed without rounding.
The binary64 computation is `Duration.MinutesF64`; its integer part is the
same for durations below `2^18` minutes (`truncInt_MinutesF64`) and can be one
more beyond. -/
def Duration.Minutes (d : Duration) : ℚ :=
  ((d.tdiv Minute : Int) : ℚ) + ((d.tmod Minute : Int) : ℚ) / (60 * 1000000000)

/-- Outcome of a `float64` division, finite operands: Go does not fault on a
zero divisor, it yields an infinity or a NaN. -/
inductive F64 where
  | finite (q : ℚ)
  | posInf
  | negInf
  | nan
  deriving DecidableEq

/-- `x / y` on finite floats, the quotient not rounded (`F64.divF64` rounds
it); a zero `y` is the positive zero. -/
def F64.div (x y : ℚ) : F64 :=
  if y = 0 then
    if 0 < x then F64.posInf else if x < 0 then F64.negInf else F64.nan
  else F64.finite (x / y)

/-- An "ordinary finite number". -/
def F64.isFinite : F64 → Bool
  | F64.finite _ => true
  | _ => false

/-! ## Go maps with `int` keys -/

/-- Go `map[int]V`. -/
abbrev GoMap (V : Type) := List (Int × V)

/-- Comma-ok lookup `v, ok := m[k]`. -/
def GoMap.get? {V : Type} : GoMap V → Int → Option V
  | [], _ => none
  | (k', v) :: m, k => if k' = k then some v else GoMap.get? m k

/-- Assignment `m[k] = v`. -/
def GoMap.set {V : Type} : GoMap V → Int → V → GoMap V
  | [], k, v => [(k, v)]
  | (k', v') :: m, k, v => if k' = k then (k', v) :: m else (k', v') :: GoMap.set m k v

/-- The builtin `len(m)`. -/
def GoMap.len {V : Type} (m : GoMap V) : Int := (m.length : Int)

/-- Keys of a map. -/
def GoMap.keys {V : Type} (m : GoMap V) : List Int := m.map Prod.fst

/-! ## The program -/

/-- Window length: how many minutes to store in the history buffer. -/
def HistoryLength : Int := 60

/-- The constant `math.MaxInt32`. -/
def MaxInt32 : Int := 2147483647

/-- User of the system. -/
structure User where
  ID : String
  ImageURL : String
  Name : String
  Username : String
  deriving DecidableEq

/-- An event for a user; `Timestamp` is in epoch milliseconds. -/
structure Event where
  ID : String
  Timestamp : ℚ
  User : User
  Message : String
  Tags : List String
  deriving DecidableEq

/-- Summary data of events. -/
structure Stats where
  count : Int
  startedAt : Time
  endedAt : Time
  min : Int
  max : Int
  history : GoMap Int
  distribution : GoMap (List Time)
  deriving DecidableEq

/-- Elapsed minutes between `startedAt` and `endedAt`, then `count / t`,
without rounding; `averagePerMinuteF64` is the binary64 computation. -/
def averagePerMinute (s : Stats) : F64 :=
  let t := (s.endedAt.Sub s.startedAt).Minutes
  F64.div (s.count : ℚ) t

/-- Seconds since the Unix epoch, as a float, to an instant, computed without
rounding; `timeFromFloat64F64` is the binary64 computation. -/
def timeFromFloat64 (ts : ℚ) : Time :=
  let secs := truncInt ts
  let nsecs := truncInt ((ts - (secs : ℚ)) * 1000000000)
  Time.Unix secs nsecs

/-- The later of two instants (`t1` when they are equal). -/
def maxTime (t0 t1 : Time) : Time :=
  if t0.After t1 then t0 else t1

/-- Source function `min`. -/
def min (x y : Int) : Int :=
  if x < y then x else y

/-- Source function `max`. -/
def max (x y : Int) : Int :=
  if x > y then x else y

/-- Source lines 84 to 97 of `saveHistory`: the update of the bucket under the
key `minutes`, with the completion of the bucket before it when a new key is
opened while the histogram holds more than one key. -/
def updateBucket (wallMinute : Time → Time) (s : Stats) (minutes : Int) : Stats :=
  match s.history.get? minutes with
  | some val => { s with history := s.history.set minutes (val + 1) }
  | none =>
    let s2 : Stats :=
      if s.history.len > 1 then
        let count := (s.history.get? (minutes - 1)).getD 0
        let minute := wallMinute s.endedAt
        { s with
          max := max count s.max
          min := min count s.min
          distribution :=
            s.distribution.set count (((s.distribution.get? count).getD []) ++ [minute]) }
      else s
    { s2 with history := s2.history.set minutes 1 }

/-- Source lines 99 to 102 of `saveHistory`: the reset of a full histogram. -/
def resetIfFull (s : Stats) : Stats :=
  if s.history.len = HistoryLength then { s with history := [] } else s

/-- Bucket update, run for every event but the first: the key is the number
of elapsed minutes (line 83), then the bucket update and the reset. -/
def saveHistory (wallMinute : Time → Time) (s : Stats) : Stats :=
  let minutes := truncInt (s.endedAt.Sub s.startedAt).Minutes
  resetIfFull (updateBucket wallMinute s minutes)

/-- The state transition of `collect` on the instant `t` of an event
(source lines 112 to 118): the record step. -/
def recordStep (wallMinute : Time → Time) (s : Stats) (t : Time) : Stats :=
  let s1 := { s with count := s.count + 1 }
  if s1.startedAt.IsZero then { s1 with startedAt := t }
  else saveHistory wallMinute { s1 with endedAt := maxTime t s1.endedAt }

/-- Handler of one text message.  `unmarshal message` is the outcome of
`json.Unmarshal([]byte(message), event)` on a fresh `Event`: the error, if any,
and the event as the decoder left it.  The result is the new state and the
returned error; the logging under `logEvents` changes nothing. -/
def collect (wallMinute : Time → Time) (unmarshal : String → Option String × Event)
    (s : Stats) (message : String) (_logEvents : Bool) : Stats × Option String :=
  let (err, event) := unmarshal message
  if err = none then
    (s, some "failed to parse message with error: <nil>")
  else
    let t := timeFromFloat64 (event.Timestamp / 1000)
    (recordStep wallMinute s t, none)

/-- Fresh statistics. -/
def initStats : Stats :=
  { count := 0
    startedAt := Time.zero
    endedAt := Time.zero
    min := MaxInt32
    max := 0
    history := []
    distribution := [] }

/-- The state after feeding the instants `ts`, in order, to the record step. -/
def recordAll (wallMinute : Time → Time) (s : Stats) (ts : List Time) : Stats :=
  ts.foldl (recordStep wallMinute) s


/-! ## Auxiliary definitions for the statements -/

/-- Line 111 of `collect`: the instant of an event whose timestamp is `ms`
epoch milliseconds, the division by 1000 exact.  The binary64 computation is
`eventTimeF64`; the two agree on timestamps of whole seconds
(`eventTimeF64_whole_seconds`) and can differ by nanoseconds elsewhere
(`eventTimeF64_fraction`). -/
def eventTime (ms : ℚ) : Time := timeFromFloat64 (ms / 1000)

/-- The key under which the record step files an event at `t` in state `s`
(an `s` whose `startedAt` is set): line 117 followed by line 83. -/
def bucketKey (s : Stats) (t : Time) : Int :=
  truncInt ((maxTime t s.endedAt).Sub s.startedAt).Minutes

/-- The record step with the bucket key computed by integer division; equal to
`recordStep` (`recordStep_eq_int`), and free of rational arithmetic. -/
def recordStepInt (wallMinute : Time → Time) (s : Stats) (t : Time) : Stats :=
  let s1 := { s with count := s.count + 1 }
  if s1.startedAt.IsZero then { s1 with startedAt := t }
  else
    let s2 := { s1 with endedAt := maxTime t s1.endedAt }
    resetIfFull (updateBucket wallMinute s2 ((s2.endedAt.Sub s2.startedAt).tdiv Minute))

/-- The instant truncated to its minute.  It is the value of lines 92 and 93
(`minuteIn`) when the process-local zone is the reference zone and its offset
is fixed and a whole number of minutes (`minuteIn_same_fixedZone`); with
another process zone, or in the hour repeated at the end of daylight saving
time, lines 92 and 93 give another instant (`minuteIn_fixedZone`,
`fall_back_hour_is_moved`). -/
def sameZoneMinute (t : Time) : Time := ⟨t.ns - t.ns % Minute⟩

/-- The instants `t0`, `t0 + 1 min`, ..., `t0 + (n - 1) min`: `n` events, one
per minute. -/
def minuteRun (t0 : Time) (n : Nat) : List Time :=
  (List.range n).map (fun (i : Nat) => (⟨t0.ns + (i : Int) * Minute⟩ : Time))

/-- A decoder that accepts every message and yields an event at epoch
millisecond `0`. -/
def acceptAll (_message : String) : Option String × Event :=
  (none, { ID := "", Timestamp := 0, User := ⟨"", "", "", ""⟩, Message := "", Tags := [] })


/-- The state of the record step just before the reset test at line 99, for a
state whose `startedAt` is set: count incremented, `endedAt` advanced, bucket
updated. -/
def preReset (wallMinute : Time → Time) (s : Stats) (t : Time) : Stats :=
  updateBucket wallMinute { s with count := s.count + 1, endedAt := maxTime t s.endedAt }
    (bucketKey s t)

/-- The bucket-completion scenario: event timestamps `[0, 60000, 60000, 120000]`
in epoch milliseconds. -/
def scenarioEvents : List Time :=
  [eventTime 0, eventTime 60000, eventTime 60000, eventTime 120000]


/-! ## Definitions for the invariants of a run -/

/-- Line 83 of `saveHistory`: the bucket key `minutes` of a state, computed
without rounding; `minutesElapsedF64` is the binary64 computation. -/
def minutesElapsed (s : Stats) : Int :=
  truncInt (s.endedAt.Sub s.startedAt).Minutes

/-- Go's `m[k]` on the histogram: the stored count, `0` when the key is absent. -/
def GoMap.count (m : GoMap Int) (k : Int) : Int := (m.get? k).getD 0

/-- Go's `m[k]` on the distribution: the stored sequence, `nil` when the key is
absent. -/
def GoMap.times (m : GoMap (List Time)) (k : Int) : List Time := (m.get? k).getD []

/-- Sum of all the values stored in a histogram. -/
def GoMap.sumValues (m : GoMap Int) : Int := (m.map Prod.snd).sum

/-- Number of timestamps stored in a distribution, over all its keys. -/
def GoMap.totalLength (m : GoMap (List Time)) : Nat := (m.map (fun p => p.2.length)).sum

/-- The bucket keys under which the record steps file the events `ts`, from
state `s` on: one key for every step that runs `saveHistory`, none for a step
that only sets `startedAt`. -/
def stepKeys (wallMinute : Time → Time) : Stats → List Time → List Int
  | _, [] => []
  | s, t :: ts =>
    (if s.startedAt.IsZero then [] else [bucketKey s t]) ++
      stepKeys wallMinute (recordStep wallMinute s t) ts

/-- The invariant: every stored count is at least 1; every key of
`distribution` is nonnegative and lies between `min` and `max`; `min` is its
initial value or a key; `max` is its initial value or a key. -/
def MinMaxInv (s : Stats) : Prop :=
  (∀ p ∈ s.history, 1 ≤ p.2) ∧
  (∀ k ∈ s.distribution.keys, s.min ≤ k ∧ k ≤ s.max ∧ 0 ≤ k) ∧
  (s.min = MaxInt32 ∨ s.min ∈ s.distribution.keys) ∧
  (s.max = 0 ∨ s.max ∈ s.distribution.keys)

/-- The invariant of a run that only ever uses the key `k`. -/
def SingleBucketInv (k : Int) (s : Stats) : Prop :=
  s.min = MaxInt32 ∧ s.max = 0 ∧ s.distribution = [] ∧
    (s.history = [] ∨ ∃ c, s.history = [(k, c)])

/-- The invariant: the histogram is empty or holds the key of the current
`endedAt`. -/
def CurrentKeyInv (s : Stats) : Prop :=
  s.history = [] ∨
    (s.startedAt.IsZero = false ∧ (s.history.get? (minutesElapsed s)).isSome = true)


/-! ## Binary64 arithmetic -/

/-- Nearest integer, ties to the even one. -/
def roundEven (x : ℚ) : Int :=
  if x - ⌊x⌋ < 1 / 2 then ⌊x⌋
  else if 1 / 2 < x - ⌊x⌋ then ⌊x⌋ + 1
  else if ⌊x⌋ % 2 = 0 then ⌊x⌋ else ⌊x⌋ + 1

/-- Rounding of a real number to `float64` (IEEE 754 binary64): the nearest
number with a 53-bit significand, ties to even.  The exponent is unbounded:
overflow and subnormal numbers are not modelled. -/
def roundF64 (x : ℚ) : ℚ :=
  if x = 0 then 0
  else (roundEven (x / 2 ^ (Int.log 2 |x| - 52)) : ℚ) * 2 ^ (Int.log 2 |x| - 52)

/-- The `float64` values: a significand below `2^53` times a power of two. -/
def IsF64 (x : ℚ) : Prop := ∃ m g : Int, |m| < 2 ^ 53 ∧ x = (m : ℚ) * 2 ^ g

/-- `d.Minutes()` in `float64` arithmetic:
`float64(d / Minute) + float64(d % Minute) / (60 * 1e9)` with both conversions,
the quotient and the sum rounded (the constant `60 * 1e9` is exact). -/
def Duration.MinutesF64 (d : Duration) : ℚ :=
  roundF64 (roundF64 ((d.tdiv Minute : Int) : ℚ) +
    roundF64 (roundF64 ((d.tmod Minute : Int) : ℚ) / (60 * 1000000000)))

/-- Line 83 of `saveHistory` in `float64` arithmetic: the bucket key the
machine computes. -/
def minutesElapsedF64 (s : Stats) : Int :=
  truncInt (s.endedAt.Sub s.startedAt).MinutesF64

/-- The function `saveHistory` with the key of line 83 computed in `float64`
arithmetic. -/
def saveHistoryF64 (wallMinute : Time → Time) (s : Stats) : Stats :=
  resetIfFull (updateBucket wallMinute s (minutesElapsedF64 s))

/-- `x / y` on finite floats, rounded; a zero `y` is the positive zero. -/
def F64.divF64 (x y : ℚ) : F64 :=
  if y = 0 then
    if 0 < x then F64.posInf else if x < 0 then F64.negInf else F64.nan
  else F64.finite (roundF64 (x / y))

/-- The function `averagePerMinute` in `float64` arithmetic: `float64(count)`,
`Minutes()` and the quotient are rounded. -/
def averagePerMinuteF64 (s : Stats) : F64 :=
  let t := (s.endedAt.Sub s.startedAt).MinutesF64
  F64.divF64 (roundF64 (s.count : ℚ)) t

/-- `timeFromFloat64` in binary64 arithmetic, for a binary64 value `ts`: the
conversion `float64(secs)`, the subtraction and the product by `1e9` each
round; the conversions `int64(f)` are taken within their range. -/
def timeFromFloat64F64 (ts : ℚ) : Time :=
  let secs := truncInt ts
  let nsecs := truncInt (roundF64 (roundF64 (ts - roundF64 (secs : ℚ)) * 1000000000))
  Time.Unix secs nsecs

/-- Line 111 of `collect` in binary64 arithmetic, for a binary64 timestamp
`ms`: the quotient `ms / 1000` rounds. -/
def eventTimeF64 (ms : ℚ) : Time := timeFromFloat64F64 (roundF64 (ms / 1000))

/-! ## Time zones and the wall-clock minute of line 93 -/

/-- A time zone (`*time.Location`): `lookup u` gives, for the Unix second `u`,
the offset in seconds east of UTC in force at `u` and the Unix seconds `start`
and `stop` between which that offset stays in force (`start ≤ u < stop`). -/
structure Location where
  lookup : Int → Int × Int × Int

/-- A zone with one offset for all time (`time.FixedZone`, `time.UTC`). -/
def fixedZone (offset : Int) : Location :=
  ⟨fun _ => (offset, -9223372036854775808, 9223372036854775807)⟩

/-- The Unix second of an instant (`t.Unix()`). -/
def Time.unixSec (t : Time) : Int := t.ns / 1000000000 - unixToInternal

/-- The wall-clock reading of `t` in the zone `l`, in seconds, cut to the whole
minute: what the date fields `Year()`, `Month()`, `Day()`, `Hour()` and
`Minute()` of `t` carry.  The civil calendar is not modelled: these five
fields and the whole minutes of the reading determine each other. -/
def Time.wallClockMinute (t : Time) (l : Location) : Int :=
  (t.unixSec + (l.lookup t.unixSec).1) / 60 * 60

/-- The instant `time.Date(y, m, d, h, min, 0, 0, loc)` for the date fields of
the wall-clock reading `wall`: package `time` looks the zone offset up at
`wall` taken as a Unix second and, when the instant so obtained falls outside
the period of that offset, looks it up again at that instant. -/
def Date (wall : Int) (loc : Location) : Time :=
  if (loc.lookup wall).1 ≠ 0 then
    if wall - (loc.lookup wall).1 < (loc.lookup wall).2.1 ∨
        wall - (loc.lookup wall).1 ≥ (loc.lookup wall).2.2 then
      Time.Unix (wall - (loc.lookup (wall - (loc.lookup wall).1)).1) 0
    else Time.Unix (wall - (loc.lookup wall).1) 0
  else Time.Unix wall 0

/-- Lines 92 and 93 of `saveHistory`: the date fields of `t` are read in the
zone `localZone` of the process (`endedAt` comes from `time.Unix`, so its
location is `time.Local`) and the date is rebuilt, with zero seconds, in the
zone `loc` that `time.LoadLocation(TimezoneDefault)` returns.  This is the
`wallMinute` of the program. -/
def minuteIn (localZone loc : Location) (t : Time) : Time :=
  Date (t.wallClockMinute localZone) loc

/-- The zone of a process running in UTC. -/
def utcZone : Location := fixedZone 0

/-- `America/Los_Angeles` outside daylight saving time (Pacific Standard Time,
UTC-8), as in January 1970. -/
def pacificStandard : Location := fixedZone (-28800)

/-- `America/Los_Angeles` from 3 November 2019 to 14 March 2021: daylight
saving time (UTC-7) from 8 March 2020, 10:00 UTC, to 1 November 2020, 09:00
UTC, standard time (UTC-8) before and after. -/
def pacific2020 : Location :=
  ⟨fun u =>
    if u < 1583661600 then (-28800, 1572771600, 1583661600)
    else if u < 1604221200 then (-25200, 1583661600, 1604221200)
    else (-28800, 1604221200, 1615716000)⟩

/-- The state in which `saveHistory` runs for an event at 00:03:00 UTC on
1 January 1970, the first event at 00:00:00, the histogram holding the minutes
1 and 2 with one event each. -/
def thirdMinuteState : Stats :=
  { count := 4, startedAt := Time.Unix 0 0, endedAt := Time.Unix 180 0, min := MaxInt32,
    max := 0, history := [(1, 1), (2, 1)], distribution := [] }

/-! ## The parse guard of `collect` -/

/-- When decoding fails, `collect` runs the record step on whatever timestamp
the decoder left in the event, and returns no error. -/
theorem collect_of_unmarshal_error (wallMinute : Time → Time)
    (unmarshal : String → Option String × Event) (s : Stats) (message : String)
    (logEvents : Bool) (e : String) (h : (unmarshal message).1 = some e) :
    collect wallMinute unmarshal s message logEvents =
      (recordStep wallMinute s (timeFromFloat64 ((unmarshal message).2.Timestamp / 1000)),
        none) := by
  unfold collect
  rcases hu : unmarshal message with ⟨err, event⟩
  rw [hu] at h
  simp only at h
  subst h
  simp

/-- C1 (the code breaks the claim): whenever the message deserializes
successfully into an `Event` (the decoder reports no error), `collect` returns
the error "failed to parse message" and leaves the state untouched; the guard
at source line 108 tests `err == nil` where `err != nil` is meant. -/
theorem collect_rejects_parsed_message (wallMinute : Time → Time)
    (unmarshal : String → Option String × Event) (s : Stats) (message : String)
    (logEvents : Bool) (h : (unmarshal message).1 = none) :
    collect wallMinute unmarshal s message logEvents =
      (s, some "failed to parse message with error: <nil>") := by
  unfold collect
  rcases hu : unmarshal message with ⟨err, event⟩
  rw [hu] at h
  simp only at h
  subst h
  simp

/-- C1 at a concrete input: a well-formed message on the fresh state. -/
theorem collect_rejects_parsed_message_witness :
    (acceptAll "\x7b\"timestamp\": 0\x7d").1 = none ∧
    collect id acceptAll initStats "\x7b\"timestamp\": 0\x7d" true =
      (initStats, some "failed to parse message with error: <nil>") :=
  ⟨rfl, collect_rejects_parsed_message id acceptAll initStats _ true rfl⟩


/-! ## Arithmetic of the time library -/

theorem Minutes_eq_div (d : Duration) : Duration.Minutes d = (d : ℚ) / 60000000000 := by
  unfold Duration.Minutes Minute
  have h := Int.tdiv_add_tmod d 60000000000
  have h2 : ((d : Int) : ℚ) =
      (60000000000 : ℚ) * ((d.tdiv 60000000000 : Int) : ℚ)
        + ((d.tmod 60000000000 : Int) : ℚ) := by
    exact_mod_cast h.symm
  rw [h2]
  field_simp
  ring

theorem truncInt_div_minute (d : Int) :
    truncInt ((d : ℚ) / 60000000000) = d.tdiv 60000000000 := by
  unfold truncInt
  have hpos : (0 : ℚ) < 60000000000 := by norm_num
  have hfl : ∀ n : Int, ⌊(n : ℚ) / 60000000000⌋ = n / 60000000000 := by
    intro n
    have := Rat.floor_intCast_div_natCast n 60000000000
    simpa using this
  by_cases hd : 0 ≤ d
  · have : (0 : ℚ) ≤ (d : ℚ) / 60000000000 := by positivity
    rw [if_pos this, hfl, Int.tdiv_eq_ediv hd (by norm_num)]
  · have hd' : d < 0 := by omega
    have : ¬ (0 : ℚ) ≤ (d : ℚ) / 60000000000 := by
      rw [not_le]
      apply div_neg_of_neg_of_pos _ hpos
      exact_mod_cast hd'
    rw [if_neg this]
    have hneg : (d : ℚ) / 60000000000 = -(((-d : Int) : ℚ) / 60000000000) := by
      push_cast; ring
    rw [hneg, Int.ceil_neg, hfl]
    have h3 : d.tdiv 60000000000 = -((-d).tdiv 60000000000) := by
      rw [Int.neg_tdiv, neg_neg]
    rw [h3, Int.tdiv_eq_ediv (by omega) (by norm_num)]

/-- The bucket key `int(d.Minutes())` is the truncated quotient of `d` by one
minute. -/
theorem truncInt_Minutes (d : Duration) : truncInt (Duration.Minutes d) = d.tdiv Minute := by
  rw [Minutes_eq_div, truncInt_div_minute]; rfl

theorem truncInt_intCast (n : Int) : truncInt (n : ℚ) = n := by
  unfold truncInt
  split <;> simp

/-- A whole number of seconds converts exactly. -/
theorem timeFromFloat64_intCast (n : Int) : timeFromFloat64 (n : ℚ) = Time.Unix n 0 := by
  have h0 : truncInt 0 = 0 := by simpa using truncInt_intCast 0
  simp [timeFromFloat64, truncInt_intCast, h0]

/-- A whole number of seconds, given in milliseconds, converts exactly. -/
theorem eventTime_seconds (n : Int) : eventTime ((n : ℚ) * 1000) = Time.Unix n 0 := by
  unfold eventTime
  rw [mul_div_assoc, div_self (by norm_num), mul_one, timeFromFloat64_intCast]

theorem recordStep_eq_int (wallMinute : Time → Time) :
    recordStep wallMinute = recordStepInt wallMinute := by
  funext s t
  simp only [recordStep, recordStepInt, saveHistory, truncInt_Minutes]

theorem recordAll_eq_int (wallMinute : Time → Time) (s : Stats) (ts : List Time) :
    recordAll wallMinute s ts = ts.foldl (recordStepInt wallMinute) s := by
  rw [recordAll, recordStep_eq_int]

theorem bucketKey_eq_int (s : Stats) (t : Time) :
    bucketKey s t = ((maxTime t s.endedAt).Sub s.startedAt).tdiv Minute := by
  rw [bucketKey, truncInt_Minutes]

theorem recordAll_nil (wallMinute : Time → Time) (s : Stats) :
    recordAll wallMinute s [] = s := rfl

theorem recordAll_cons (wallMinute : Time → Time) (s : Stats) (t : Time) (ts : List Time) :
    recordAll wallMinute s (t :: ts) = recordAll wallMinute (recordStep wallMinute s t) ts :=
  rfl

theorem recordAll_append (wallMinute : Time → Time) (s : Stats) (ts us : List Time) :
    recordAll wallMinute s (ts ++ us) = recordAll wallMinute (recordAll wallMinute s ts) us := by
  simp [recordAll, List.foldl_append]

/-! ## Frame lemmas: what the bucket update leaves alone -/

theorem updateBucket_count (wallMinute : Time → Time) (s : Stats) (m : Int) :
    (updateBucket wallMinute s m).count = s.count := by
  unfold updateBucket
  split
  · rfl
  · split <;> rfl

theorem updateBucket_startedAt (wallMinute : Time → Time) (s : Stats) (m : Int) :
    (updateBucket wallMinute s m).startedAt = s.startedAt := by
  unfold updateBucket
  split
  · rfl
  · split <;> rfl

theorem updateBucket_endedAt (wallMinute : Time → Time) (s : Stats) (m : Int) :
    (updateBucket wallMinute s m).endedAt = s.endedAt := by
  unfold updateBucket
  split
  · rfl
  · split <;> rfl

theorem resetIfFull_count (s : Stats) : (resetIfFull s).count = s.count := by
  unfold resetIfFull; split <;> rfl

theorem resetIfFull_startedAt (s : Stats) : (resetIfFull s).startedAt = s.startedAt := by
  unfold resetIfFull; split <;> rfl

theorem resetIfFull_endedAt (s : Stats) : (resetIfFull s).endedAt = s.endedAt := by
  unfold resetIfFull; split <;> rfl

theorem resetIfFull_min (s : Stats) : (resetIfFull s).min = s.min := by
  unfold resetIfFull; split <;> rfl

theorem resetIfFull_max (s : Stats) : (resetIfFull s).max = s.max := by
  unfold resetIfFull; split <;> rfl

theorem resetIfFull_distribution (s : Stats) :
    (resetIfFull s).distribution = s.distribution := by
  unfold resetIfFull; split <;> rfl

theorem saveHistory_count (wallMinute : Time → Time) (s : Stats) :
    (saveHistory wallMinute s).count = s.count := by
  simp [saveHistory, resetIfFull_count, updateBucket_count]

theorem saveHistory_startedAt (wallMinute : Time → Time) (s : Stats) :
    (saveHistory wallMinute s).startedAt = s.startedAt := by
  simp [saveHistory, resetIfFull_startedAt, updateBucket_startedAt]

theorem saveHistory_endedAt (wallMinute : Time → Time) (s : Stats) :
    (saveHistory wallMinute s).endedAt = s.endedAt := by
  simp [saveHistory, resetIfFull_endedAt, updateBucket_endedAt]

/-! ## The record step on `count`, `startedAt`, `endedAt` -/

theorem recordStep_count (wallMinute : Time → Time) (s : Stats) (t : Time) :
    (recordStep wallMinute s t).count = s.count + 1 := by
  unfold recordStep
  dsimp only
  split
  · rfl
  · rw [saveHistory_count]

theorem recordStep_startedAt (wallMinute : Time → Time) (s : Stats) (t : Time) :
    (recordStep wallMinute s t).startedAt = if s.startedAt.IsZero then t else s.startedAt := by
  unfold recordStep
  dsimp only
  split
  · rfl
  · rw [saveHistory_startedAt]

theorem recordStep_endedAt (wallMinute : Time → Time) (s : Stats) (t : Time) :
    (recordStep wallMinute s t).endedAt =
      if s.startedAt.IsZero then s.endedAt else maxTime t s.endedAt := by
  unfold recordStep
  dsimp only
  split
  · rfl
  · rw [saveHistory_endedAt]

theorem recordAll_count_add (wallMinute : Time → Time) (ts : List Time) (s : Stats) :
    (recordAll wallMinute s ts).count = s.count + (ts.length : Int) := by
  induction ts generalizing s with
  | nil => simp [recordAll_nil]
  | cons t ts ih =>
    rw [recordAll_cons, ih, recordStep_count, List.length_cons]
    push_cast
    ring

theorem recordAll_startedAt_of_set (wallMinute : Time → Time) (ts : List Time) (s : Stats)
    (h : s.startedAt.IsZero = false) :
    (recordAll wallMinute s ts).startedAt = s.startedAt := by
  induction ts generalizing s with
  | nil => rfl
  | cons t ts ih =>
    have hstep : (recordStep wallMinute s t).startedAt = s.startedAt := by
      rw [recordStep_startedAt, h]; rfl
    rw [recordAll_cons, ih _ (by rw [hstep]; exact h), hstep]

theorem maxTime_ns (t0 t1 : Time) : (maxTime t0 t1).ns = Max.max t0.ns t1.ns := by
  unfold maxTime Time.After
  by_cases h : t1.ns < t0.ns
  · simp [h, le_of_lt h]
  · simp [h, not_lt.mp h]

/-! ## Claims C2, C3, C9 -/

/-- C2 (P1, monotonic count): starting from `initStats`, after the record step
has been applied to any sequence of `N` event instants, in any order, `count`
equals `N`. -/
theorem count_eq_number_of_events (wallMinute : Time → Time) (ts : List Time) :
    (recordAll wallMinute initStats ts).count = (ts.length : Int) := by
  rw [recordAll_count_add]
  simp [initStats]

/-- C3 (the claim fails at the sentinel): the epoch-millisecond timestamp
`-62135596800000` is the zero `time.Time`, which `collect` reads as "unset";
after a first event there, the second event (at epoch millisecond `0`)
overwrites `startedAt`, which then differs from the first event's instant. -/
theorem startedAt_overwritten_after_zero_time :
    eventTime (-62135596800000) = Time.zero ∧
    (recordAll sameZoneMinute initStats
        [eventTime (-62135596800000)]).startedAt = eventTime (-62135596800000) ∧
    (recordAll sameZoneMinute initStats
        [eventTime (-62135596800000), eventTime 0]).startedAt ≠ eventTime (-62135596800000) := by
  have h0 : eventTime (-62135596800000) = Time.zero := by
    have := eventTime_seconds (-62135596800)
    norm_num at this
    rw [this]; decide
  have h1 : eventTime 0 = Time.Unix 0 0 := by
    have := eventTime_seconds 0
    norm_num at this
    exact this
  rw [h0, h1]
  refine ⟨rfl, ?_, ?_⟩
  · rw [recordAll_eq_int]; decide
  · rw [recordAll_eq_int]; decide

/-- C3 as amended (P2, window epoch immutability): for every sequence of event
instants whose first instant `t0` is not the zero `time.Time`, `startedAt`
equals `t0` after the first call and after every later call (`ts` is any
continuation, the empty one included). -/
theorem startedAt_eq_first_event (wallMinute : Time → Time) (t0 : Time) (ts : List Time)
    (h : t0.IsZero = false) :
    (recordAll wallMinute initStats (t0 :: ts)).startedAt = t0 := by
  have hstep : (recordStep wallMinute initStats t0).startedAt = t0 := by
    rw [recordStep_startedAt]; rfl
  rw [recordAll_cons, recordAll_startedAt_of_set _ _ _ (by rw [hstep]; exact h), hstep]

/-- The amended C3 at a concrete run with an out-of-order event. -/
theorem startedAt_eq_first_event_witness :
    (Time.Unix 60 0).IsZero = false ∧
    (recordAll sameZoneMinute initStats
        (Time.Unix 60 0 :: [Time.Unix 120 0, Time.Unix 0 0])).startedAt = Time.Unix 60 0 :=
  ⟨by decide, startedAt_eq_first_event sameZoneMinute (Time.Unix 60 0) _ (by decide)⟩

/-- C9 (P3, windowEnd non-regression): for every state and every event instant,
also one earlier than the current `endedAt`, `endedAt` after the record step is
not earlier than `endedAt` before it. -/
theorem endedAt_never_decreases (wallMinute : Time → Time) (s : Stats) (t : Time) :
    s.endedAt.ns ≤ (recordStep wallMinute s t).endedAt.ns := by
  rw [recordStep_endedAt]
  split
  · exact le_refl _
  · rw [maxTime_ns]; exact le_max_right _ _


/-! ## Evaluation helpers -/

theorem eventTime_0 : eventTime 0 = Time.Unix 0 0 := by
  have h := eventTime_seconds 0
  norm_num at h
  exact h

theorem eventTime_30000 : eventTime 30000 = Time.Unix 30 0 := by
  have h := eventTime_seconds 30
  norm_num at h
  exact h

theorem eventTime_60000 : eventTime 60000 = Time.Unix 60 0 := by
  have h := eventTime_seconds 60
  norm_num at h
  exact h

theorem eventTime_120000 : eventTime 120000 = Time.Unix 120 0 := by
  have h := eventTime_seconds 120
  norm_num at h
  exact h

theorem recordStep_of_set (wallMinute : Time → Time) (s : Stats) (t : Time)
    (h : s.startedAt.IsZero = false) :
    recordStep wallMinute s t = resetIfFull (preReset wallMinute s t) := by
  simp [recordStep, saveHistory, preReset, bucketKey, h]

theorem recordStep_of_unset (wallMinute : Time → Time) (s : Stats) (t : Time)
    (h : s.startedAt.IsZero = true) :
    recordStep wallMinute s t = { s with count := s.count + 1, startedAt := t } := by
  simp [recordStep, h]

theorem Time.Sub_of_small (t u : Time) (h1 : minDuration ≤ t.ns - u.ns)
    (h2 : t.ns - u.ns ≤ maxDuration) : t.Sub u = t.ns - u.ns := by
  unfold Time.Sub
  simp only
  rw [if_neg (not_lt.mpr h1), if_neg (not_lt.mpr h2)]

theorem maxTime_of_lt (t e : Time) (h : e.ns < t.ns) : maxTime t e = t := by
  simp [maxTime, Time.After, h]

theorem maxTime_of_le (t e : Time) (h : t.ns ≤ e.ns) : maxTime t e = e := by
  simp [maxTime, Time.After, not_lt.mpr h]

theorem IsZero_eq_false_of_pos (t : Time) (h : 0 < t.ns) : t.IsZero = false := by
  simp [Time.IsZero]; omega

/-! ## Claims C4, C5: bucket completion -/

/-- C4 (the scenario fails as stated): on the timestamps
`[0, 60000, 60000, 120000]` it is not the case that `min = max = 1` with an
entry under key `1` in `distribution` after the second event, nor that
`max = 2`, `min = 1` with entries under keys `1` and `2` after the fourth. -/
theorem scenario_completes_no_bucket :
    ¬ ((recordAll sameZoneMinute initStats (scenarioEvents.take 2)).min = 1 ∧
        (recordAll sameZoneMinute initStats (scenarioEvents.take 2)).max = 1 ∧
        ((recordAll sameZoneMinute initStats (scenarioEvents.take 2)).distribution.get? 1).isSome) ∧
    ¬ ((recordAll sameZoneMinute initStats scenarioEvents).max = 2 ∧
        (recordAll sameZoneMinute initStats scenarioEvents).min = 1 ∧
        ((recordAll sameZoneMinute initStats scenarioEvents).distribution.get? 1).isSome ∧
        ((recordAll sameZoneMinute initStats scenarioEvents).distribution.get? 2).isSome) := by
  simp only [scenarioEvents, eventTime_0, eventTime_60000, eventTime_120000, recordAll_eq_int]
  decide

/-- C4 as amended: on the timestamps `[0, 60000, 60000, 120000]` the first
event only sets `startedAt`; the second opens minute 1 with count 1; the third
raises minute 1 to count 2; the fourth opens minute 2 with count 1; and after
every one of them `min`, `max` and `distribution` still have their initial
values, because no bucket is completed while the histogram holds at most one
key. -/
theorem scenario_states (wallMinute : Time → Time) :
    recordAll wallMinute initStats (scenarioEvents.take 1) =
      { count := 1, startedAt := Time.Unix 0 0, endedAt := Time.zero, min := MaxInt32,
        max := 0, history := [], distribution := [] } ∧
    recordAll wallMinute initStats (scenarioEvents.take 2) =
      { count := 2, startedAt := Time.Unix 0 0, endedAt := Time.Unix 60 0, min := MaxInt32,
        max := 0, history := [(1, 1)], distribution := [] } ∧
    recordAll wallMinute initStats (scenarioEvents.take 3) =
      { count := 3, startedAt := Time.Unix 0 0, endedAt := Time.Unix 60 0, min := MaxInt32,
        max := 0, history := [(1, 2)], distribution := [] } ∧
    recordAll wallMinute initStats scenarioEvents =
      { count := 4, startedAt := Time.Unix 0 0, endedAt := Time.Unix 120 0, min := MaxInt32,
        max := 0, history := [(1, 2), (2, 1)], distribution := [] } := by
  have e1 : recordStepInt wallMinute initStats (Time.Unix 0 0) =
      { count := 1, startedAt := Time.Unix 0 0, endedAt := Time.zero, min := MaxInt32,
        max := 0, history := [], distribution := [] } := rfl
  have e2 : recordStepInt wallMinute
      { count := 1, startedAt := Time.Unix 0 0, endedAt := Time.zero, min := MaxInt32,
        max := 0, history := [], distribution := [] } (Time.Unix 60 0) =
      { count := 2, startedAt := Time.Unix 0 0, endedAt := Time.Unix 60 0, min := MaxInt32,
        max := 0, history := [(1, 1)], distribution := [] } := rfl
  have e3 : recordStepInt wallMinute
      { count := 2, startedAt := Time.Unix 0 0, endedAt := Time.Unix 60 0, min := MaxInt32,
        max := 0, history := [(1, 1)], distribution := [] } (Time.Unix 60 0) =
      { count := 3, startedAt := Time.Unix 0 0, endedAt := Time.Unix 60 0, min := MaxInt32,
        max := 0, history := [(1, 2)], distribution := [] } := rfl
  have e4 : recordStepInt wallMinute
      { count := 3, startedAt := Time.Unix 0 0, endedAt := Time.Unix 60 0, min := MaxInt32,
        max := 0, history := [(1, 2)], distribution := [] } (Time.Unix 120 0) =
      { count := 4, startedAt := Time.Unix 0 0, endedAt := Time.Unix 120 0, min := MaxInt32,
        max := 0, history := [(1, 2), (2, 1)], distribution := [] } := rfl
  simp only [scenarioEvents, eventTime_0, eventTime_60000, eventTime_120000, recordAll_eq_int,
    List.take, List.foldl, e1, e2, e3, e4, and_self]


theorem tdiv_minute_eq_zero (d : Int) (h0 : 0 ≤ d) (h1 : d < Minute) : d.tdiv Minute = 0 := by
  have hM : Minute = 60000000000 := rfl
  rw [hM] at h1 ⊢
  rw [Int.tdiv_eq_ediv h0 (by norm_num)]
  omega

theorem tdiv_minute_eq_one (d : Int) (h0 : Minute ≤ d) (h1 : d < 2 * Minute) :
    d.tdiv Minute = 1 := by
  have hM : Minute = 60000000000 := rfl
  rw [hM] at h0 h1 ⊢
  rw [Int.tdiv_eq_ediv (by omega) (by norm_num)]
  omega

/-- The first three events of a run that starts after the zero time, at
elapsed minutes 0, 0 and 1. -/
theorem three_events_states (wallMinute : Time → Time) (t0 t1 t2 : Time)
    (h0 : 0 < t0.ns) (h1 : t0.ns ≤ t1.ns) (h1' : t1.ns < t0.ns + Minute)
    (h2 : t0.ns + Minute ≤ t2.ns) (h2' : t2.ns < t0.ns + 2 * Minute) :
    recordAll wallMinute initStats [t0] =
      { count := 1, startedAt := t0, endedAt := Time.zero, min := MaxInt32, max := 0,
        history := [], distribution := [] } ∧
    recordAll wallMinute initStats [t0, t1] =
      { count := 2, startedAt := t0, endedAt := t1, min := MaxInt32, max := 0,
        history := [(0, 1)], distribution := [] } ∧
    recordAll wallMinute initStats [t0, t1, t2] =
      { count := 3, startedAt := t0, endedAt := t2, min := MaxInt32, max := 0,
        history := [(0, 1), (1, 1)], distribution := [] } := by
  have hM : Minute = 60000000000 := rfl
  have hk1 : (t1.ns - t0.ns).tdiv Minute = 0 := tdiv_minute_eq_zero _ (by omega) (by omega)
  have hk2 : (t2.ns - t0.ns).tdiv Minute = 1 := tdiv_minute_eq_one _ (by omega) (by omega)
  rw [hM] at h1' h2 h2'
  have hz0 : t0.IsZero = false := IsZero_eq_false_of_pos t0 h0
  have hm1 : maxTime t1 Time.zero = t1 := maxTime_of_lt _ _ (by show (0 : Int) < t1.ns; omega)
  have hm2 : maxTime t2 t1 = t2 := maxTime_of_lt _ _ (by omega)
  have hs1 : t1.Sub t0 = t1.ns - t0.ns :=
    Time.Sub_of_small _ _ (by unfold minDuration; omega) (by unfold maxDuration; omega)
  have hs2 : t2.Sub t0 = t2.ns - t0.ns :=
    Time.Sub_of_small _ _ (by unfold minDuration; omega) (by unfold maxDuration; omega)
  have e1 : recordStepInt wallMinute initStats t0 =
      { count := 1, startedAt := t0, endedAt := Time.zero, min := MaxInt32, max := 0,
        history := [], distribution := [] } := rfl
  have e2 : recordStepInt wallMinute
      { count := 1, startedAt := t0, endedAt := Time.zero, min := MaxInt32, max := 0,
        history := [], distribution := [] } t1 =
      { count := 2, startedAt := t0, endedAt := t1, min := MaxInt32, max := 0,
        history := [(0, 1)], distribution := [] } := by
    simp [recordStepInt, hz0, hm1, hs1, hk1, updateBucket, resetIfFull, GoMap.get?,
      GoMap.set, GoMap.len, HistoryLength]
  have e3 : recordStepInt wallMinute
      { count := 2, startedAt := t0, endedAt := t1, min := MaxInt32, max := 0,
        history := [(0, 1)], distribution := [] } t2 =
      { count := 3, startedAt := t0, endedAt := t2, min := MaxInt32, max := 0,
        history := [(0, 1), (1, 1)], distribution := [] } := by
    simp [recordStepInt, hz0, hm2, hs2, hk2, updateBucket, resetIfFull, GoMap.get?,
      GoMap.set, GoMap.len, HistoryLength]
  simp only [recordAll_eq_int, List.foldl, e1, e2, e3, and_self]

/-- C5 (the completion does not happen): for events at epoch milliseconds
`0`, `30000`, `60000` (elapsed minutes 0, 0, 1) it is not the case that after
the third event `min = max = 2` with an entry under key `2` in
`distribution`. -/
theorem third_event_completes_no_bucket :
    ¬ ((recordAll sameZoneMinute initStats
          [eventTime 0, eventTime 30000, eventTime 60000]).min = 2 ∧
        (recordAll sameZoneMinute initStats
          [eventTime 0, eventTime 30000, eventTime 60000]).max = 2 ∧
        ((recordAll sameZoneMinute initStats
          [eventTime 0, eventTime 30000, eventTime 60000]).distribution.get? 2).isSome) := by
  simp only [eventTime_0, eventTime_30000, eventTime_60000, recordAll_eq_int]
  decide

/-- C5 as amended (P4): for three events at elapsed minutes 0, 0, 1 fed to the
record step from `initStats` (the first event after the zero time), `min`,
`max` and `distribution` keep their initial values after each of the three
events; the first event is not bucketed, so after the third event the
histogram holds count 1 under key 0 and count 1 under key 1, and no bucket has
been completed. -/
theorem three_events_leave_min_max_distribution (wallMinute : Time → Time) (t0 t1 t2 : Time)
    (h0 : 0 < t0.ns) (h1 : t0.ns ≤ t1.ns) (h1' : t1.ns < t0.ns + Minute)
    (h2 : t0.ns + Minute ≤ t2.ns) (h2' : t2.ns < t0.ns + 2 * Minute) :
    (∀ ts ∈ [[t0], [t0, t1], [t0, t1, t2]],
      (recordAll wallMinute initStats ts).min = MaxInt32 ∧
      (recordAll wallMinute initStats ts).max = 0 ∧
      (recordAll wallMinute initStats ts).distribution = []) ∧
    (recordAll wallMinute initStats [t0, t1]).history = [(0, 1)] ∧
    (recordAll wallMinute initStats [t0, t1, t2]).history = [(0, 1), (1, 1)] := by
  obtain ⟨e1, e2, e3⟩ := three_events_states wallMinute t0 t1 t2 h0 h1 h1' h2 h2'
  refine ⟨?_, by rw [e2], by rw [e3]⟩
  intro ts hts
  simp only [List.mem_cons, List.mem_singleton, List.not_mem_nil, or_false] at hts
  rcases hts with rfl | rfl | rfl
  · rw [e1]; exact ⟨rfl, rfl, rfl⟩
  · rw [e2]; exact ⟨rfl, rfl, rfl⟩
  · rw [e3]; exact ⟨rfl, rfl, rfl⟩

/-- The amended C5 at events 0 s, 30 s and 60 s after the Unix epoch. -/
theorem three_events_leave_min_max_distribution_witness :
    (recordAll sameZoneMinute initStats
      [Time.Unix 0 0, Time.Unix 30 0, Time.Unix 60 0]).history = [(0, 1), (1, 1)] :=
  (three_events_leave_min_max_distribution sameZoneMinute (Time.Unix 0 0) (Time.Unix 30 0)
    (Time.Unix 60 0) (by decide) (by decide) (by decide) (by decide) (by decide)).2.2


/-! ## `endedAt` as a running maximum -/

theorem recordAll_endedAt_of_set (wallMinute : Time → Time) (ts : List Time) (s : Stats)
    (h : s.startedAt.IsZero = false) :
    (recordAll wallMinute s ts).endedAt = ts.foldl (fun e t => maxTime t e) s.endedAt := by
  induction ts generalizing s with
  | nil => rfl
  | cons t ts ih =>
    have hst : (recordStep wallMinute s t).startedAt.IsZero = false := by
      rw [recordStep_startedAt, h]; exact h
    have hen : (recordStep wallMinute s t).endedAt = maxTime t s.endedAt := by
      rw [recordStep_endedAt, h]; rfl
    rw [recordAll_cons, ih _ hst, hen, List.foldl_cons]

theorem foldl_maxTime_spec (ts : List Time) (e0 : Time) :
    e0.ns ≤ (ts.foldl (fun e t => maxTime t e) e0).ns ∧
    (∀ t ∈ ts, t.ns ≤ (ts.foldl (fun e t => maxTime t e) e0).ns) ∧
    ((ts.foldl (fun e t => maxTime t e) e0) = e0 ∨
      (ts.foldl (fun e t => maxTime t e) e0) ∈ ts) := by
  induction ts generalizing e0 with
  | nil => simp
  | cons t ts ih =>
    obtain ⟨h1, h2, h3⟩ := ih (maxTime t e0)
    have hm := maxTime_ns t e0
    rw [List.foldl_cons]
    refine ⟨?_, ?_, ?_⟩
    · have : e0.ns ≤ (maxTime t e0).ns := by rw [hm]; exact le_max_right _ _
      exact le_trans this h1
    · intro u hu
      rcases List.mem_cons.mp hu with rfl | hu
      · have : u.ns ≤ (maxTime u e0).ns := by rw [hm]; exact le_max_left _ _
        exact le_trans this h1
      · exact h2 u hu
    · rcases h3 with h3 | h3
      · rw [h3]
        by_cases hlt : e0.ns < t.ns
        · right; rw [maxTime_of_lt _ _ hlt]; exact List.mem_cons_self _ _
        · left; exact maxTime_of_le _ _ (not_lt.mp hlt)
      · right; exact List.mem_cons_of_mem _ h3

/-- After a first event that is not at the zero time, `endedAt` is the maximum
of the zero time and the instants of the later events. -/
theorem endedAt_spec (wallMinute : Time → Time) (t0 : Time) (ts : List Time)
    (h : t0.IsZero = false) :
    0 ≤ (recordAll wallMinute initStats (t0 :: ts)).endedAt.ns ∧
    (∀ t ∈ ts, t.ns ≤ (recordAll wallMinute initStats (t0 :: ts)).endedAt.ns) ∧
    ((recordAll wallMinute initStats (t0 :: ts)).endedAt = Time.zero ∨
      (recordAll wallMinute initStats (t0 :: ts)).endedAt ∈ ts) := by
  have hs : recordStep wallMinute initStats t0 =
      { initStats with count := initStats.count + 1, startedAt := t0 } :=
    recordStep_of_unset _ _ _ rfl
  have he : (recordAll wallMinute initStats (t0 :: ts)).endedAt =
      ts.foldl (fun e t => maxTime t e) Time.zero := by
    rw [recordAll_cons, recordAll_endedAt_of_set _ _ _ (by rw [hs]; exact h), hs]
    rfl
  rw [he]
  exact foldl_maxTime_spec ts Time.zero

/-! ## Claim C8 -/

/-- C8 (the first event is left out): after the events at epoch milliseconds
`120000` and `60000`, `endedAt` is the instant of the second event, which is
earlier than the first event: it is not the maximum of the timestamps observed
so far. -/
theorem endedAt_ignores_first_event :
    (recordAll sameZoneMinute initStats [eventTime 120000, eventTime 60000]).endedAt =
      eventTime 60000 ∧
    (eventTime 60000).ns < (eventTime 120000).ns := by
  simp only [eventTime_60000, eventTime_120000, recordAll_eq_int]
  decide

/-- C8 as amended: after any sequence of record steps from `initStats` whose
first event is not at the zero time, `endedAt` is the maximum of the zero time
(the value of the unset field) and the timestamps of the events after the
first one: it is no earlier than any of them and it is one of them or the zero
time; so when some event after the first is later than the zero time, `endedAt`
is the latest timestamp among the events after the first.  The first event
only sets `startedAt`. -/
theorem endedAt_max_of_later_events (wallMinute : Time → Time) (t0 : Time) (ts : List Time)
    (h : t0.IsZero = false) :
    (∀ t ∈ ts, t.ns ≤ (recordAll wallMinute initStats (t0 :: ts)).endedAt.ns) ∧
    0 ≤ (recordAll wallMinute initStats (t0 :: ts)).endedAt.ns ∧
    ((recordAll wallMinute initStats (t0 :: ts)).endedAt = Time.zero ∨
      (recordAll wallMinute initStats (t0 :: ts)).endedAt ∈ ts) ∧
    ((∃ t ∈ ts, 0 < t.ns) → (recordAll wallMinute initStats (t0 :: ts)).endedAt ∈ ts) := by
  obtain ⟨h1, h2, h3⟩ := endedAt_spec wallMinute t0 ts h
  refine ⟨h2, h1, h3, ?_⟩
  rintro ⟨t, ht, hpos⟩
  rcases h3 with h3 | h3
  · have := h2 t ht
    rw [h3] at this
    have hz : Time.zero.ns = 0 := rfl
    omega
  · exact h3

/-- The amended C8 on a run whose first event is the latest. -/
theorem endedAt_max_of_later_events_witness :
    (recordAll sameZoneMinute initStats
      (Time.Unix 120 0 :: [Time.Unix 30 0, Time.Unix 60 0, Time.Unix 0 0])).endedAt ∈
      [Time.Unix 30 0, Time.Unix 60 0, Time.Unix 0 0] :=
  (endedAt_max_of_later_events sameZoneMinute (Time.Unix 120 0)
    [Time.Unix 30 0, Time.Unix 60 0, Time.Unix 0 0] (by decide)).2.2.2
    ⟨Time.Unix 30 0, by decide, by decide⟩


/-! ## The average rate -/

theorem Minutes_ne_zero (d : Duration) (h : d ≠ 0) : Duration.Minutes d ≠ 0 := by
  rw [Minutes_eq_div]
  have hd : ((d : Int) : ℚ) ≠ 0 := by exact_mod_cast h
  exact div_ne_zero hd (by norm_num)

theorem zero_Sub_ne_zero (t : Time) (h : t.IsZero = false) : Time.zero.Sub t ≠ 0 := by
  have ht : t.ns ≠ 0 := by simpa [Time.IsZero] using h
  have hz : Time.zero.ns = 0 := rfl
  unfold Time.Sub minDuration maxDuration
  simp only [hz]
  split
  · decide
  · split
    · decide
    · intro h0
      have h1 : (0 : Int) - t.ns = 0 := h0
      omega

theorem averagePerMinute_first_event (wallMinute : Time → Time) (t : Time)
    (h : t.IsZero = false) :
    averagePerMinute (recordStep wallMinute initStats t) =
      F64.finite (1 / (Time.zero.Sub t).Minutes) := by
  rw [recordStep_of_unset wallMinute initStats t rfl]
  have hne := Minutes_ne_zero _ (zero_Sub_ne_zero t h)
  simp only [averagePerMinute, F64.div, initStats] 
  rw [if_neg hne]
  norm_num

/-! ## Claim C6 -/

/-- C6 (the elapsed time is not zero): after exactly one event, at epoch
millisecond `0`, `endedAt` is still the zero time, the elapsed time saturates
at the smallest `Duration`, and `averagePerMinute` is the ordinary finite
number `-(60000000000 / 2^63)`, about `-6.5e-9`: neither a NaN nor an
infinity. -/
theorem average_after_first_event_is_finite :
    averagePerMinute (recordAll sameZoneMinute initStats [eventTime 0]) =
      F64.finite (-(60000000000 / 9223372036854775808)) ∧
    (averagePerMinute (recordAll sameZoneMinute initStats [eventTime 0])).isFinite = true := by
  have hv : averagePerMinute (recordAll sameZoneMinute initStats [eventTime 0]) =
      F64.finite (-(60000000000 / 9223372036854775808)) := by
    rw [eventTime_0]
    show averagePerMinute (recordStep sameZoneMinute initStats (Time.Unix 0 0)) = _
    rw [averagePerMinute_first_event _ _ (by decide), Minutes_eq_div]
    have hs : Time.zero.Sub (Time.Unix 0 0) = -9223372036854775808 := by decide
    rw [hs]
    norm_num
  rw [hv]
  exact ⟨rfl, rfl⟩

/-- C6 as amended: in the state reached from `initStats` by recording exactly
one event, at any instant other than the zero time, `endedAt` is still unset
(the zero time), so the elapsed time is the zero time minus `startedAt`
(saturated to the range of `Duration`), which is not zero, and
`averagePerMinute` is `1` divided by that number of minutes: an ordinary
finite number. -/
theorem average_after_first_event (wallMinute : Time → Time) (t : Time)
    (h : t.IsZero = false) :
    (recordStep wallMinute initStats t).endedAt = Time.zero ∧
    (Time.zero.Sub t).Minutes ≠ 0 ∧
    averagePerMinute (recordStep wallMinute initStats t) =
      F64.finite (1 / (Time.zero.Sub t).Minutes) ∧
    (averagePerMinute (recordStep wallMinute initStats t)).isFinite = true := by
  refine ⟨?_, Minutes_ne_zero _ (zero_Sub_ne_zero t h), averagePerMinute_first_event _ _ h, ?_⟩
  · rw [recordStep_of_unset wallMinute initStats t rfl]; rfl
  · rw [averagePerMinute_first_event _ _ h]; rfl

/-- The amended C6 at the Unix epoch. -/
theorem average_after_first_event_witness :
    (averagePerMinute (recordStep sameZoneMinute initStats (Time.Unix 0 0))).isFinite = true :=
  (average_after_first_event sameZoneMinute (Time.Unix 0 0) (by decide)).2.2.2


/-! ## One event per minute -/

theorem minuteRun_succ (t0 : Time) (n : Nat) :
    minuteRun t0 (n + 1) =
      t0 :: (List.range n).map (fun (i : Nat) => (⟨t0.ns + ((i : Int) + 1) * Minute⟩ : Time)) := by
  unfold minuteRun
  rw [List.range_succ_eq_map, List.map_cons, List.map_map]
  refine congrArg₂ List.cons (by simp) (List.map_congr_left fun i _ => by simp)

theorem minuteRun_length (t0 : Time) (n : Nat) : (minuteRun t0 n).length = n := by
  simp [minuteRun]

theorem minuteRun_endedAt (wallMinute : Time → Time) (t0 : Time) (T : Nat)
    (h0 : 0 < t0.ns) (hT : 0 < T) :
    (recordAll wallMinute initStats (minuteRun t0 (T + 1))).endedAt =
      ⟨t0.ns + (T : Int) * Minute⟩ := by
  have hM : Minute = 60000000000 := rfl
  rw [minuteRun_succ]
  obtain ⟨_, h2, h3⟩ := endedAt_spec wallMinute t0
    ((List.range T).map (fun (i : Nat) => (⟨t0.ns + ((i : Int) + 1) * Minute⟩ : Time)))
    (IsZero_eq_false_of_pos t0 h0)
  generalize (recordAll wallMinute initStats
    (t0 :: (List.range T).map (fun (i : Nat) => (⟨t0.ns + ((i : Int) + 1) * Minute⟩ : Time)))).endedAt
    = e at h2 h3 ⊢
  have hlast : t0.ns + (T : Int) * Minute ≤ e.ns := by
    have hmem : (⟨t0.ns + (((T - 1 : Nat) : Int) + 1) * Minute⟩ : Time) ∈
        (List.range T).map (fun (i : Nat) => (⟨t0.ns + ((i : Int) + 1) * Minute⟩ : Time)) :=
      List.mem_map.mpr ⟨T - 1, List.mem_range.mpr (by omega), rfl⟩
    have := h2 _ hmem
    simp only at this
    have hc : (((T - 1 : Nat) : Int) + 1) = (T : Int) := by omega
    rw [hc] at this
    exact this
  have hz : Time.zero.ns = 0 := rfl
  rcases h3 with h3 | h3
  · rw [h3, hz, hM] at hlast
    omega
  · obtain ⟨i, hi, rfl⟩ := List.mem_map.mp h3
    have hi' := List.mem_range.mp hi
    simp only [hM] at hlast ⊢
    have : (i : Int) + 1 = (T : Int) := by omega
    rw [this]

theorem averagePerMinute_minuteRun (wallMinute : Time → Time) (t0 : Time) (T : Nat)
    (h0 : 0 < t0.ns) (hT : 0 < T) (hmax : (T : Int) * Minute ≤ maxDuration) :
    averagePerMinute (recordAll wallMinute initStats (minuteRun t0 (T + 1))) =
      F64.finite (((T : ℚ) + 1) / (T : ℚ)) := by
  have hM : Minute = 60000000000 := rfl
  have hc : (recordAll wallMinute initStats (minuteRun t0 (T + 1))).count = (T : Int) + 1 := by
    rw [recordAll_count_add, minuteRun_length]
    simp [initStats]
  have hs : (recordAll wallMinute initStats (minuteRun t0 (T + 1))).startedAt = t0 := by
    rw [minuteRun_succ, recordAll_cons]
    have hstep : (recordStep wallMinute initStats t0).startedAt = t0 := by
      rw [recordStep_startedAt]; rfl
    rw [recordAll_startedAt_of_set _ _ _
      (by rw [hstep]; exact IsZero_eq_false_of_pos t0 h0), hstep]
  have he := minuteRun_endedAt wallMinute t0 T h0 hT
  have hsub : (⟨t0.ns + (T : Int) * Minute⟩ : Time).Sub t0 = (T : Int) * Minute := by
    rw [Time.Sub_of_small]
    · simp
    · show minDuration ≤ t0.ns + (T : Int) * Minute - t0.ns
      unfold minDuration
      rw [hM]; omega
    · show t0.ns + (T : Int) * Minute - t0.ns ≤ maxDuration
      have : t0.ns + (T : Int) * Minute - t0.ns = (T : Int) * Minute := by ring
      rw [this]; exact hmax
  have hT' : (T : ℚ) ≠ 0 := by exact_mod_cast (Nat.pos_iff_ne_zero.mp hT)
  have hmin : Duration.Minutes ((T : Int) * Minute) = (T : ℚ) := by
    rw [Minutes_eq_div, hM]
    push_cast
    field_simp
  simp only [averagePerMinute, hc, hs, he, hsub, hmin, F64.div]
  rw [if_neg hT']
  push_cast
  rfl

/-! ## The histogram reset -/

theorem GoMap.length_set_of_get?_none {V : Type} (m : GoMap V) (k : Int) (v : V)
    (h : m.get? k = none) : (m.set k v).length = m.length + 1 := by
  induction m with
  | nil => rfl
  | cons p m ih =>
    obtain ⟨k', v'⟩ := p
    unfold GoMap.get? at h
    unfold GoMap.set
    by_cases hk : k' = k
    · simp [hk] at h
    · simp only [hk, if_false] at h ⊢
      simp [ih h]

theorem preReset_history_of_new (wallMinute : Time → Time) (s : Stats) (t : Time)
    (h : s.history.get? (bucketKey s t) = none) :
    (preReset wallMinute s t).history = s.history.set (bucketKey s t) 1 := by
  simp only [preReset, updateBucket, h]
  split <;> rfl

theorem preReset_of_empty (wallMinute : Time → Time) (s : Stats) (t : Time)
    (h : s.history = []) :
    preReset wallMinute s t =
      { s with count := s.count + 1, endedAt := maxTime t s.endedAt,
               history := [(bucketKey s t, 1)] } := by
  simp [preReset, updateBucket, h, GoMap.get?, GoMap.len, GoMap.set]

theorem recordStep_of_full (wallMinute : Time → Time) (s : Stats) (t : Time)
    (hs : s.startedAt.IsZero = false) (hlen : s.history.len = HistoryLength - 1)
    (hnew : s.history.get? (bucketKey s t) = none) :
    recordStep wallMinute s t = { preReset wallMinute s t with history := [] } := by
  rw [recordStep_of_set _ _ _ hs]
  have hl : (preReset wallMinute s t).history.len = HistoryLength := by
    rw [preReset_history_of_new _ _ _ hnew]
    unfold GoMap.len at hlen ⊢
    rw [GoMap.length_set_of_get?_none _ _ _ hnew]
    push_cast
    omega
  simp [resetIfFull, hl]

theorem recordStep_of_empty (wallMinute : Time → Time) (s : Stats) (t : Time)
    (hs : s.startedAt.IsZero = false) (h : s.history = []) :
    recordStep wallMinute s t =
      { s with count := s.count + 1, endedAt := maxTime t s.endedAt,
               history := [(bucketKey s t, 1)] } := by
  rw [recordStep_of_set _ _ _ hs, preReset_of_empty _ _ _ h]
  simp [resetIfFull, GoMap.len, HistoryLength]

theorem reset_steps (wallMinute : Time → Time) (s : Stats) (t1 t2 : Time)
    (hs : s.startedAt.IsZero = false) (hlen : s.history.len = HistoryLength - 1)
    (hnew : s.history.get? (bucketKey s t1) = none) :
    (recordStep wallMinute s t1).history = [] ∧
    (recordStep wallMinute s t1).min = (preReset wallMinute s t1).min ∧
    (recordStep wallMinute s t1).max = (preReset wallMinute s t1).max ∧
    (recordStep wallMinute s t1).distribution = (preReset wallMinute s t1).distribution ∧
    (recordStep wallMinute (recordStep wallMinute s t1) t2).history =
      [(bucketKey (recordStep wallMinute s t1) t2, 1)] ∧
    (recordStep wallMinute (recordStep wallMinute s t1) t2).min =
      (recordStep wallMinute s t1).min ∧
    (recordStep wallMinute (recordStep wallMinute s t1) t2).max =
      (recordStep wallMinute s t1).max ∧
    (recordStep wallMinute (recordStep wallMinute s t1) t2).distribution =
      (recordStep wallMinute s t1).distribution := by
  have h1 := recordStep_of_full wallMinute s t1 hs hlen hnew
  have hs1 : (recordStep wallMinute s t1).startedAt.IsZero = false := by
    rw [recordStep_startedAt, hs]; exact hs
  have he1 : (recordStep wallMinute s t1).history = [] := by rw [h1]
  have h2 := recordStep_of_empty wallMinute (recordStep wallMinute s t1) t2 hs1 he1
  refine ⟨he1, by rw [h1], by rw [h1], by rw [h1], ?_, ?_, ?_, ?_⟩ <;> rw [h2]


/-! ## Claim C10 -/

set_option maxRecDepth 100000 in
/-- C10 (the reset comes one key earlier): in the run of one event per minute
from epoch millisecond `0`, the histogram holds 59 keys after keys 1 to 59 have
been opened, is empty after the 60th key has been opened, and holds the single
key 61 after the 61st: the step that opens the 61st distinct minute does not
make the key count drop, it raises it from 0 to 1. -/
theorem histogram_empty_after_sixtieth_key :
    (recordAll sameZoneMinute initStats (minuteRun (eventTime 0) 60)).history.len = 59 ∧
    (recordAll sameZoneMinute initStats (minuteRun (eventTime 0) 61)).history = [] ∧
    (recordAll sameZoneMinute initStats (minuteRun (eventTime 0) 62)).history = [(61, 1)] ∧
    ¬ ((recordAll sameZoneMinute initStats (minuteRun (eventTime 0) 62)).history.len <
        (recordAll sameZoneMinute initStats (minuteRun (eventTime 0) 61)).history.len) := by
  simp only [eventTime_0, recordAll_eq_int]
  decide

/-- C10 as amended (P5, histogram reset): from a state with `startedAt` set
whose histogram holds 59 distinct keys, the record step that opens a new key
(the 60th) leaves the histogram empty, the reset leaving `min`, `max` and
`distribution` as the bucket update of that step set them; and the record step
after it leaves the histogram with the newly opened key only, with count 1 (the
key count goes from 0 to 1), and leaves `min`, `max` and `distribution`
unchanged. -/
theorem histogram_reset (wallMinute : Time → Time) (s : Stats) (t1 t2 : Time)
    (hs : s.startedAt.IsZero = false) (hlen : s.history.len = HistoryLength - 1)
    (hnew : s.history.get? (bucketKey s t1) = none) :
    (recordStep wallMinute s t1).history = [] ∧
    (recordStep wallMinute s t1).min = (preReset wallMinute s t1).min ∧
    (recordStep wallMinute s t1).max = (preReset wallMinute s t1).max ∧
    (recordStep wallMinute s t1).distribution = (preReset wallMinute s t1).distribution ∧
    (recordStep wallMinute (recordStep wallMinute s t1) t2).history =
      [(bucketKey (recordStep wallMinute s t1) t2, 1)] ∧
    (recordStep wallMinute (recordStep wallMinute s t1) t2).min =
      (recordStep wallMinute s t1).min ∧
    (recordStep wallMinute (recordStep wallMinute s t1) t2).max =
      (recordStep wallMinute s t1).max ∧
    (recordStep wallMinute (recordStep wallMinute s t1) t2).distribution =
      (recordStep wallMinute s t1).distribution :=
  reset_steps wallMinute s t1 t2 hs hlen hnew

set_option maxRecDepth 100000 in
/-- The amended C10 on the run of one event per minute from the Unix epoch:
after 60 events the histogram holds the 59 keys 1 to 59, and the event of
minute 60 empties it. -/
theorem histogram_reset_witness :
    (recordAll sameZoneMinute initStats (minuteRun (Time.Unix 0 0) 60)).history.len =
      HistoryLength - 1 ∧
    (recordStep sameZoneMinute
      (recordAll sameZoneMinute initStats (minuteRun (Time.Unix 0 0) 60))
      ⟨(Time.Unix 0 0).ns + 60 * Minute⟩).history = [] :=
  ⟨by rw [recordAll_eq_int]; decide,
   (histogram_reset sameZoneMinute
      (recordAll sameZoneMinute initStats (minuteRun (Time.Unix 0 0) 60))
      ⟨(Time.Unix 0 0).ns + 60 * Minute⟩ ⟨(Time.Unix 0 0).ns + 61 * Minute⟩
      (by rw [recordAll_eq_int]; decide)
      (by rw [recordAll_eq_int]; decide)
      (by rw [bucketKey_eq_int, recordAll_eq_int]; decide)).1⟩

/-! ## Lemmas on Go maps -/

theorem GoMap.get?_set_self {V : Type} (m : GoMap V) (k : Int) (v : V) :
    (m.set k v).get? k = some v := by
  induction m with
  | nil => simp [GoMap.set, GoMap.get?]
  | cons p m ih =>
    obtain ⟨k', v'⟩ := p
    by_cases hk : k' = k
    · simp [GoMap.set, GoMap.get?, hk]
    · simp [GoMap.set, GoMap.get?, hk, ih]

theorem GoMap.get?_set_ne {V : Type} (m : GoMap V) (k k' : Int) (v : V) (h : k' ≠ k) :
    (m.set k v).get? k' = m.get? k' := by
  induction m with
  | nil =>
    have : ¬ k = k' := fun e => h e.symm
    simp [GoMap.set, GoMap.get?, this]
  | cons p m ih =>
    obtain ⟨k1, v1⟩ := p
    by_cases hk : k1 = k
    · subst hk
      have : ¬ k1 = k' := fun e => h e.symm
      simp [GoMap.set, GoMap.get?, this]
    · by_cases hk' : k1 = k'
      · subst hk'
        simp [GoMap.set, GoMap.get?, hk]
      · simp [GoMap.set, GoMap.get?, hk, hk', ih]

theorem GoMap.mem_keys_of_get?_some {V : Type} (m : GoMap V) (k : Int) (v : V)
    (h : m.get? k = some v) : (k, v) ∈ m := by
  induction m with
  | nil => simp [GoMap.get?] at h
  | cons p m ih =>
    obtain ⟨k1, v1⟩ := p
    by_cases hk : k1 = k
    · simp [GoMap.get?, hk] at h
      subst hk; subst h
      exact List.mem_cons_self _ _
    · simp [GoMap.get?, hk] at h
      exact List.mem_cons_of_mem _ (ih h)

theorem GoMap.get?_eq_none_iff {V : Type} (m : GoMap V) (k : Int) :
    m.get? k = none ↔ k ∉ m.keys := by
  induction m with
  | nil => simp [GoMap.get?, GoMap.keys]
  | cons p m ih =>
    obtain ⟨k1, v1⟩ := p
    by_cases hk : k1 = k
    · simp [GoMap.get?, GoMap.keys, hk]
    · have hk' : ¬ k = k1 := fun e => hk e.symm
      simp only [GoMap.get?, hk, if_false, ih]
      simp [GoMap.keys, hk']

theorem GoMap.mem_set {V : Type} (m : GoMap V) (k : Int) (v : V) (p : Int × V)
    (h : p ∈ m.set k v) : p ∈ m ∨ p = (k, v) := by
  induction m with
  | nil =>
    simp [GoMap.set] at h
    exact Or.inr h
  | cons q m ih =>
    obtain ⟨k1, v1⟩ := q
    by_cases hk : k1 = k
    · simp only [GoMap.set, hk, if_true] at h
      rcases List.mem_cons.mp h with h | h
      · exact Or.inr h
      · exact Or.inl (List.mem_cons_of_mem _ h)
    · simp only [GoMap.set, hk, if_false] at h
      rcases List.mem_cons.mp h with h | h
      · exact Or.inl (h ▸ List.mem_cons_self _ _)
      · rcases ih h with h | h
        · exact Or.inl (List.mem_cons_of_mem _ h)
        · exact Or.inr h

theorem GoMap.keys_set_of_get?_some {V : Type} (m : GoMap V) (k : Int) (v w : V)
    (h : m.get? k = some w) : (m.set k v).keys = m.keys := by
  induction m with
  | nil => simp [GoMap.get?] at h
  | cons p m ih =>
    obtain ⟨k1, v1⟩ := p
    by_cases hk : k1 = k
    · simp [GoMap.set, GoMap.keys, hk]
    · simp only [GoMap.get?, hk, if_false] at h
      have := ih h
      simp only [GoMap.keys] at this
      simp [GoMap.set, GoMap.keys, hk, this]

theorem GoMap.keys_set_of_get?_none {V : Type} (m : GoMap V) (k : Int) (v : V)
    (h : m.get? k = none) : (m.set k v).keys = m.keys ++ [k] := by
  induction m with
  | nil => simp [GoMap.set, GoMap.keys]
  | cons p m ih =>
    obtain ⟨k1, v1⟩ := p
    by_cases hk : k1 = k
    · simp [GoMap.get?, hk] at h
    · simp only [GoMap.get?, hk, if_false] at h
      have := ih h
      simp only [GoMap.keys] at this
      simp [GoMap.set, GoMap.keys, hk, this]

theorem GoMap.mem_keys_set {V : Type} (m : GoMap V) (k k' : Int) (v : V) :
    k' ∈ (m.set k v).keys ↔ k' ∈ m.keys ∨ k' = k := by
  cases h : m.get? k with
  | none => rw [GoMap.keys_set_of_get?_none _ _ _ h]; simp
  | some w =>
    rw [GoMap.keys_set_of_get?_some _ _ _ _ h]
    constructor
    · exact Or.inl
    · rintro (h' | h')
      · exact h'
      · subst h'
        by_contra hc
        rw [(GoMap.get?_eq_none_iff m k').mpr hc] at h
        exact Option.noConfusion h

theorem GoMap.length_set_of_get?_some {V : Type} (m : GoMap V) (k : Int) (v w : V)
    (h : m.get? k = some w) : (m.set k v).length = m.length := by
  have := congrArg List.length (GoMap.keys_set_of_get?_some m k v w h)
  simpa [GoMap.keys] using this

theorem GoMap.nodup_keys_set {V : Type} (m : GoMap V) (k : Int) (v : V)
    (h : m.keys.Nodup) : (m.set k v).keys.Nodup := by
  cases hg : m.get? k with
  | none =>
    rw [GoMap.keys_set_of_get?_none _ _ _ hg]
    have hk := (GoMap.get?_eq_none_iff m k).mp hg
    rw [List.nodup_append]
    refine ⟨h, List.nodup_singleton k, ?_⟩
    intro a ha hb
    rw [List.mem_singleton] at hb
    exact hk (hb ▸ ha)
  | some w => rw [GoMap.keys_set_of_get?_some _ _ _ _ hg]; exact h

theorem GoMap.sumValues_set_of_get?_none (m : GoMap Int) (k v : Int)
    (h : m.get? k = none) : (m.set k v).sumValues = m.sumValues + v := by
  induction m with
  | nil => simp [GoMap.set, GoMap.sumValues]
  | cons p m ih =>
    obtain ⟨k1, v1⟩ := p
    by_cases hk : k1 = k
    · simp [GoMap.get?, hk] at h
    · simp only [GoMap.get?, hk, if_false] at h
      have := ih h
      simp only [GoMap.sumValues] at this
      simp [GoMap.set, GoMap.sumValues, hk, this]
      ring

theorem GoMap.sumValues_set_of_get?_some (m : GoMap Int) (k v w : Int)
    (h : m.get? k = some w) : (m.set k v).sumValues = m.sumValues - w + v := by
  induction m with
  | nil => simp [GoMap.get?] at h
  | cons p m ih =>
    obtain ⟨k1, v1⟩ := p
    by_cases hk : k1 = k
    · simp [GoMap.get?, hk] at h
      subst h
      simp [GoMap.set, GoMap.sumValues, hk]
      ring
    · simp only [GoMap.get?, hk, if_false] at h
      have := ih h
      simp only [GoMap.sumValues] at this
      simp [GoMap.set, GoMap.sumValues, hk, this]
      ring

/-! ## The three cases of the bucket update -/

theorem updateBucket_of_some (wallMinute : Time → Time) (s : Stats) (m val : Int)
    (h : s.history.get? m = some val) :
    updateBucket wallMinute s m = { s with history := s.history.set m (val + 1) } := by
  simp [updateBucket, h]

theorem updateBucket_of_none_of_le (wallMinute : Time → Time) (s : Stats) (m : Int)
    (h : s.history.get? m = none) (hl : s.history.len ≤ 1) :
    updateBucket wallMinute s m = { s with history := s.history.set m 1 } := by
  have hl' : ¬ s.history.len > 1 := not_lt.mpr hl
  simp [updateBucket, h, hl']

theorem updateBucket_of_none_of_gt (wallMinute : Time → Time) (s : Stats) (m : Int)
    (h : s.history.get? m = none) (hl : s.history.len > 1) :
    updateBucket wallMinute s m =
      { s with
        max := max (s.history.count (m - 1)) s.max
        min := min (s.history.count (m - 1)) s.min
        distribution :=
          s.distribution.set (s.history.count (m - 1))
            (s.distribution.times (s.history.count (m - 1)) ++ [wallMinute s.endedAt])
        history := s.history.set m 1 } := by
  simp [updateBucket, h, hl, GoMap.count, GoMap.times]

theorem updateBucket_history (wallMinute : Time → Time) (s : Stats) (m : Int) :
    ∃ v, (updateBucket wallMinute s m).history = s.history.set m v := by
  cases h : s.history.get? m with
  | some val => exact ⟨val + 1, by rw [updateBucket_of_some _ _ _ _ h]⟩
  | none =>
    by_cases hl : s.history.len > 1
    · exact ⟨1, by rw [updateBucket_of_none_of_gt _ _ _ h hl]⟩
    · exact ⟨1, by rw [updateBucket_of_none_of_le _ _ _ h (not_lt.mp hl)]⟩

theorem recordStep_cases (wallMinute : Time → Time) (s : Stats) (t : Time) :
    (s.startedAt.IsZero = true ∧
      recordStep wallMinute s t = { s with count := s.count + 1, startedAt := t }) ∨
    (s.startedAt.IsZero = false ∧
      recordStep wallMinute s t = resetIfFull (preReset wallMinute s t)) := by
  cases h : s.startedAt.IsZero with
  | true => exact Or.inl ⟨rfl, recordStep_of_unset _ _ _ h⟩
  | false => exact Or.inr ⟨rfl, recordStep_of_set _ _ _ h⟩

/-- Induction over the record steps of a run. -/
theorem recordAll_invariant (wallMinute : Time → Time) (P : Stats → Prop)
    (hstep : ∀ s t, P s → P (recordStep wallMinute s t)) (ts : List Time) (s : Stats)
    (hs : P s) : P (recordAll wallMinute s ts) := by
  induction ts generalizing s with
  | nil => exact hs
  | cons t ts ih => exact ih _ (hstep s t hs)

/-! ## Claim C11: the histogram bound -/

theorem GoMap.length_set_le {V : Type} (m : GoMap V) (k : Int) (v : V) :
    (m.set k v).length ≤ m.length + 1 := by
  cases h : m.get? k with
  | none => rw [GoMap.length_set_of_get?_none _ _ _ h]
  | some w => rw [GoMap.length_set_of_get?_some _ _ _ _ h]; exact Nat.le_succ _

theorem resetIfFull_history_len (s : Stats) (h : s.history.len ≤ HistoryLength) :
    (resetIfFull s).history.len < HistoryLength := by
  unfold resetIfFull
  split
  · show GoMap.len ([] : GoMap Int) < HistoryLength
    decide
  · next hne => exact lt_of_le_of_ne h hne

theorem resetIfFull_history_nodup (s : Stats) (h : s.history.keys.Nodup) :
    (resetIfFull s).history.keys.Nodup := by
  unfold resetIfFull
  split
  · exact List.nodup_nil
  · exact h

theorem recordStep_history_bound (wallMinute : Time → Time) (s : Stats) (t : Time)
    (h : s.history.len < HistoryLength ∧ s.history.keys.Nodup) :
    (recordStep wallMinute s t).history.len < HistoryLength ∧
      (recordStep wallMinute s t).history.keys.Nodup := by
  rcases recordStep_cases wallMinute s t with ⟨_, e⟩ | ⟨_, e⟩
  · rw [e]; exact h
  · rw [e]
    obtain ⟨v, hv⟩ := updateBucket_history wallMinute
      { s with count := s.count + 1, endedAt := maxTime t s.endedAt } (bucketKey s t)
    have hv' : (preReset wallMinute s t).history = s.history.set (bucketKey s t) v := hv
    constructor
    · apply resetIfFull_history_len
      rw [hv']
      have h1 := GoMap.length_set_le s.history (bucketKey s t) v
      have h2 := h.1
      unfold GoMap.len HistoryLength at *
      omega
    · apply resetIfFull_history_nodup
      rw [hv']
      exact GoMap.nodup_keys_set _ _ _ h.2

theorem reachable_history_bound (wallMinute : Time → Time) (ts : List Time) :
    (recordAll wallMinute initStats ts).history.len < HistoryLength ∧
      (recordAll wallMinute initStats ts).history.keys.Nodup :=
  recordAll_invariant wallMinute
    (fun s => s.history.len < HistoryLength ∧ s.history.keys.Nodup)
    (fun s t h => recordStep_history_bound wallMinute s t h) ts initStats
    ⟨by decide, List.nodup_nil⟩

theorem recordStep_history_of_full (wallMinute : Time → Time) (s : Stats) (t : Time)
    (hs : s.startedAt.IsZero = false)
    (hfull : (preReset wallMinute s t).history.len = HistoryLength) :
    (recordStep wallMinute s t).history = [] := by
  rw [recordStep_of_set _ _ _ hs]
  simp [resetIfFull, hfull]

/-- C11 (histogram bound): in every state reachable from `initStats` by record
steps the histogram holds at most `HistoryLength` (60) keys, all distinct (in
fact fewer than 60); and whenever the bucket update of a record step brings the
key count to 60, that same step ends with the histogram entirely empty. -/
theorem histogram_bound (wallMinute : Time → Time) (ts : List Time) (t : Time) :
    (recordAll wallMinute initStats ts).history.len ≤ HistoryLength ∧
    (recordAll wallMinute initStats ts).history.len < HistoryLength ∧
    (recordAll wallMinute initStats ts).history.keys.Nodup ∧
    ((recordAll wallMinute initStats ts).startedAt.IsZero = false →
      (preReset wallMinute (recordAll wallMinute initStats ts) t).history.len = HistoryLength →
      (recordStep wallMinute (recordAll wallMinute initStats ts) t).history = []) := by
  obtain ⟨h1, h2⟩ := reachable_history_bound wallMinute ts
  exact ⟨le_of_lt h1, h1, h2, fun hs hfull => recordStep_history_of_full _ _ _ hs hfull⟩

/-! ## Claim C13: the count dominates the histogram -/

theorem updateBucket_sumValues (wallMinute : Time → Time) (s : Stats) (m : Int) :
    (updateBucket wallMinute s m).history.sumValues = s.history.sumValues + 1 := by
  cases h : s.history.get? m with
  | some val =>
    rw [updateBucket_of_some _ _ _ _ h]
    show (s.history.set m (val + 1)).sumValues = _
    rw [GoMap.sumValues_set_of_get?_some _ _ _ _ h]
    ring
  | none =>
    by_cases hl : s.history.len > 1
    · rw [updateBucket_of_none_of_gt _ _ _ h hl]
      exact GoMap.sumValues_set_of_get?_none _ _ _ h
    · rw [updateBucket_of_none_of_le _ _ _ h (not_lt.mp hl)]
      exact GoMap.sumValues_set_of_get?_none _ _ _ h

theorem recordStep_sumValues_le (wallMinute : Time → Time) (s : Stats) (t : Time)
    (h : 0 ≤ s.count ∧ s.history.sumValues ≤ s.count) :
    0 ≤ (recordStep wallMinute s t).count ∧
      (recordStep wallMinute s t).history.sumValues ≤ (recordStep wallMinute s t).count := by
  have hc := recordStep_count wallMinute s t
  refine ⟨by omega, ?_⟩
  rw [hc]
  rcases recordStep_cases wallMinute s t with ⟨_, e⟩ | ⟨_, e⟩
  · rw [e]
    show s.history.sumValues ≤ s.count + 1
    omega
  · rw [e]
    have hu : (preReset wallMinute s t).history.sumValues = s.history.sumValues + 1 :=
      updateBucket_sumValues wallMinute _ _
    unfold resetIfFull
    split
    · show GoMap.sumValues [] ≤ s.count + 1
      have : GoMap.sumValues [] = 0 := rfl
      omega
    · omega

/-- C13: in every state reachable from `initStats` by record steps, `count` is
greater than or equal to the sum of all the values stored in `history`. -/
theorem count_ge_histogram_sum (wallMinute : Time → Time) (ts : List Time) :
    (recordAll wallMinute initStats ts).history.sumValues ≤
      (recordAll wallMinute initStats ts).count :=
  (recordAll_invariant wallMinute
    (fun s => 0 ≤ s.count ∧ s.history.sumValues ≤ s.count)
    (fun s t h => recordStep_sumValues_le wallMinute s t h) ts initStats
    ⟨by decide, by decide⟩).2

/-! ## The invariant of `min`, `max` and the keys of `distribution` -/

theorem srcMin_le_left (x y : Int) : min x y ≤ x := by
  unfold min; split <;> omega

theorem srcMin_le_right (x y : Int) : min x y ≤ y := by
  unfold min; split <;> omega

theorem srcMin_eq (x y : Int) : min x y = x ∨ min x y = y := by
  unfold min; split
  · exact Or.inl rfl
  · exact Or.inr rfl

theorem left_le_srcMax (x y : Int) : x ≤ max x y := by
  unfold max; split <;> omega

theorem right_le_srcMax (x y : Int) : y ≤ max x y := by
  unfold max; split <;> omega

theorem srcMax_eq (x y : Int) : max x y = x ∨ max x y = y := by
  unfold max; split
  · exact Or.inl rfl
  · exact Or.inr rfl

theorem GoMap.count_nonneg (m : GoMap Int) (k : Int) (h : ∀ p ∈ m, 1 ≤ p.2) :
    0 ≤ m.count k := by
  unfold GoMap.count
  cases hg : m.get? k with
  | none => simp
  | some v =>
    have := h _ (GoMap.mem_keys_of_get?_some m k v hg)
    simp only [Option.getD_some]
    omega

theorem MinMaxInv_updateBucket (wallMinute : Time → Time) (s : Stats) (m : Int)
    (h : MinMaxInv s) : MinMaxInv (updateBucket wallMinute s m) := by
  obtain ⟨hv, hk, hmin, hmax⟩ := h
  cases hg : s.history.get? m with
  | some val =>
    rw [updateBucket_of_some _ _ _ _ hg]
    refine ⟨?_, hk, hmin, hmax⟩
    intro p hp
    rcases GoMap.mem_set _ _ _ _ hp with hp | hp
    · exact hv p hp
    · have := hv _ (GoMap.mem_keys_of_get?_some _ _ _ hg)
      rw [hp]
      show 1 ≤ val + 1
      omega
  | none =>
    have hv' : ∀ p ∈ s.history.set m 1, 1 ≤ p.2 := by
      intro p hp
      rcases GoMap.mem_set _ _ _ _ hp with hp | hp
      · exact hv p hp
      · rw [hp]
    by_cases hl : s.history.len > 1
    · rw [updateBucket_of_none_of_gt _ _ _ hg hl]
      have hc := GoMap.count_nonneg s.history (m - 1) hv
      generalize s.history.count (m - 1) = c at hc ⊢
      refine ⟨hv', ?_, ?_, ?_⟩
      · intro k hk'
        rcases (GoMap.mem_keys_set _ _ _ _).mp hk' with hk' | hk'
        · obtain ⟨h1, h2, h3⟩ := hk k hk'
          exact ⟨le_trans (srcMin_le_right c s.min) h1,
            le_trans h2 (right_le_srcMax c s.max), h3⟩
        · rw [hk']
          exact ⟨srcMin_le_left c s.min, left_le_srcMax c s.max, hc⟩
      · show min c s.min = MaxInt32 ∨ min c s.min ∈ GoMap.keys (GoMap.set _ _ _)
        rcases srcMin_eq c s.min with e | e
        · right; rw [e]; exact (GoMap.mem_keys_set _ _ _ _).mpr (Or.inr rfl)
        · rw [e]
          rcases hmin with hmin | hmin
          · exact Or.inl hmin
          · exact Or.inr ((GoMap.mem_keys_set _ _ _ _).mpr (Or.inl hmin))
      · show max c s.max = 0 ∨ max c s.max ∈ GoMap.keys (GoMap.set _ _ _)
        rcases srcMax_eq c s.max with e | e
        · right; rw [e]; exact (GoMap.mem_keys_set _ _ _ _).mpr (Or.inr rfl)
        · rw [e]
          rcases hmax with hmax | hmax
          · exact Or.inl hmax
          · exact Or.inr ((GoMap.mem_keys_set _ _ _ _).mpr (Or.inl hmax))
    · rw [updateBucket_of_none_of_le _ _ _ hg (not_lt.mp hl)]
      exact ⟨hv', hk, hmin, hmax⟩

theorem MinMaxInv_resetIfFull (s : Stats) (h : MinMaxInv s) : MinMaxInv (resetIfFull s) := by
  obtain ⟨hv, hk, hmin, hmax⟩ := h
  unfold resetIfFull
  split
  · exact ⟨fun p hp => absurd hp (List.not_mem_nil p), hk, hmin, hmax⟩
  · exact ⟨hv, hk, hmin, hmax⟩

theorem MinMaxInv_recordStep (wallMinute : Time → Time) (s : Stats) (t : Time)
    (h : MinMaxInv s) : MinMaxInv (recordStep wallMinute s t) := by
  rcases recordStep_cases wallMinute s t with ⟨_, e⟩ | ⟨_, e⟩
  · rw [e]; exact h
  · rw [e]
    exact MinMaxInv_resetIfFull _ (MinMaxInv_updateBucket wallMinute _ _ h)

theorem MinMaxInv_reachable (wallMinute : Time → Time) (ts : List Time) :
    MinMaxInv (recordAll wallMinute initStats ts) :=
  recordAll_invariant wallMinute MinMaxInv (fun s t h => MinMaxInv_recordStep wallMinute s t h)
    ts initStats
    ⟨fun p hp => absurd hp (List.not_mem_nil p),
     fun k hk => absurd hk (List.not_mem_nil k), Or.inl rfl, Or.inl rfl⟩

/-! ## Claims C14 and C20 -/

/-- C14: in every state reachable from `initStats` by record steps, every
completed-bucket count `k` (every key of `distribution`) satisfies
`min ≤ k ≤ max`. -/
theorem completed_count_between_min_max (wallMinute : Time → Time) (ts : List Time) (k : Int)
    (hk : k ∈ (recordAll wallMinute initStats ts).distribution.keys) :
    (recordAll wallMinute initStats ts).min ≤ k ∧ k ≤ (recordAll wallMinute initStats ts).max := by
  obtain ⟨_, h, _, _⟩ := MinMaxInv_reachable wallMinute ts
  exact ⟨(h k hk).1, (h k hk).2.1⟩

/-- C14 on a run with completed buckets of counts 2 and 1: there `min = 1` and
`max = 2`. -/
theorem completed_count_between_min_max_witness :
    (recordAll sameZoneMinute initStats
      [Time.Unix 0 0, Time.Unix 60 0, Time.Unix 120 0, Time.Unix 120 0, Time.Unix 180 0,
        Time.Unix 240 0]).min ≤ 2 ∧
    2 ≤ (recordAll sameZoneMinute initStats
      [Time.Unix 0 0, Time.Unix 60 0, Time.Unix 120 0, Time.Unix 120 0, Time.Unix 180 0,
        Time.Unix 240 0]).max :=
  completed_count_between_min_max sameZoneMinute _ 2 (by rw [recordAll_eq_int]; decide)

/-- C20 (min/max are tight): in every state reachable from `initStats` by
record steps in which every completed-bucket count is below `2^31 - 1`, if
`distribution` is empty then `min = math.MaxInt32` and `max = 0`, and otherwise
`min` is the smallest key of `distribution` and `max` is the largest. -/
theorem min_max_tight (wallMinute : Time → Time) (ts : List Time)
    (hb : ∀ k ∈ (recordAll wallMinute initStats ts).distribution.keys, k < MaxInt32) :
    ((recordAll wallMinute initStats ts).distribution = [] →
      (recordAll wallMinute initStats ts).min = MaxInt32 ∧
      (recordAll wallMinute initStats ts).max = 0) ∧
    ((recordAll wallMinute initStats ts).distribution ≠ [] →
      ((recordAll wallMinute initStats ts).min ∈
          (recordAll wallMinute initStats ts).distribution.keys ∧
        ∀ k ∈ (recordAll wallMinute initStats ts).distribution.keys,
          (recordAll wallMinute initStats ts).min ≤ k) ∧
      ((recordAll wallMinute initStats ts).max ∈
          (recordAll wallMinute initStats ts).distribution.keys ∧
        ∀ k ∈ (recordAll wallMinute initStats ts).distribution.keys,
          k ≤ (recordAll wallMinute initStats ts).max)) := by
  obtain ⟨_, hk, hmin, hmax⟩ := MinMaxInv_reachable wallMinute ts
  generalize recordAll wallMinute initStats ts = s at hb hk hmin hmax ⊢
  constructor
  · intro he
    rw [he] at hmin hmax
    exact ⟨hmin.resolve_right (List.not_mem_nil _), hmax.resolve_right (List.not_mem_nil _)⟩
  · intro hne
    obtain ⟨p, hp⟩ := List.exists_mem_of_ne_nil _ hne
    have hp' : p.1 ∈ s.distribution.keys := List.mem_map_of_mem Prod.fst hp
    obtain ⟨h1, h2, h3⟩ := hk _ hp'
    have hlt := hb _ hp'
    refine ⟨⟨?_, fun k hk' => (hk k hk').1⟩, ⟨?_, fun k hk' => (hk k hk').2.1⟩⟩
    · rcases hmin with e | e
      · omega
      · exact e
    · rcases hmax with e | e
      · have : p.1 = 0 := by omega
        rw [e, ← this]; exact hp'
      · exact e

/-- C20 on a run with completed buckets of counts 2 and 1: `min = 1` is a key
of `distribution`. -/
theorem min_max_tight_witness :
    (recordAll sameZoneMinute initStats
      [Time.Unix 0 0, Time.Unix 60 0, Time.Unix 120 0, Time.Unix 120 0, Time.Unix 180 0,
        Time.Unix 240 0]).min ∈
    (recordAll sameZoneMinute initStats
      [Time.Unix 0 0, Time.Unix 60 0, Time.Unix 120 0, Time.Unix 120 0, Time.Unix 180 0,
        Time.Unix 240 0]).distribution.keys :=
  ((min_max_tight sameZoneMinute _ (by rw [recordAll_eq_int]; decide)).2
    (by rw [recordAll_eq_int]; decide)).1.1

/-! ## Claim C12: the single-bucket run -/

theorem SingleBucketInv_recordStep (wallMinute : Time → Time) (k : Int) (s : Stats) (t : Time)
    (h : SingleBucketInv k s) (hk : s.startedAt.IsZero = false → bucketKey s t = k) :
    SingleBucketInv k (recordStep wallMinute s t) := by
  obtain ⟨h1, h2, h3, h4⟩ := h
  rcases recordStep_cases wallMinute s t with ⟨_, e⟩ | ⟨hs, e⟩
  · rw [e]; exact ⟨h1, h2, h3, h4⟩
  · rw [e, preReset, hk hs]
    rcases h4 with h4 | ⟨c, h4⟩
    · rw [updateBucket_of_none_of_le _ _ _ (by simp [h4, GoMap.get?])
        (by simp [h4, GoMap.len])]
      simp [resetIfFull, h4, GoMap.set, GoMap.len, HistoryLength, SingleBucketInv, h1, h2, h3]
    · rw [updateBucket_of_some _ _ _ c (by simp [h4, GoMap.get?])]
      simp [resetIfFull, h4, GoMap.set, GoMap.len, HistoryLength, SingleBucketInv, h1, h2, h3]

theorem SingleBucketInv_recordAll (wallMinute : Time → Time) (k : Int) (ts : List Time)
    (s : Stats) (h : SingleBucketInv k s) (hk : ∀ k' ∈ stepKeys wallMinute s ts, k' = k) :
    SingleBucketInv k (recordAll wallMinute s ts) := by
  induction ts generalizing s with
  | nil => exact h
  | cons t ts ih =>
    rw [recordAll_cons]
    apply ih
    · apply SingleBucketInv_recordStep _ _ _ _ h
      intro hs
      apply hk
      simp [stepKeys, hs]
    · intro k' hk'
      apply hk
      simp only [stepKeys, List.mem_append]
      exact Or.inr hk'

theorem stepKeys_take (wallMinute : Time → Time) (ts : List Time) (s : Stats) (n : Nat)
    (k : Int) (h : k ∈ stepKeys wallMinute s (ts.take n)) : k ∈ stepKeys wallMinute s ts := by
  induction ts generalizing s n with
  | nil => simpa using h
  | cons t ts ih =>
    cases n with
    | zero => simp [stepKeys] at h
    | succ n =>
      simp only [List.take_succ_cons, stepKeys, List.mem_append] at h ⊢
      rcases h with h | h
      · exact Or.inl h
      · exact Or.inr (ih _ _ h)

/-- C12 (single-bucket run): for every event sequence fed to the record step
from `initStats` in which all bucketed events fall under one and the same
elapsed-minute key `k`, after every call (after every prefix of the sequence)
`min`, `max` and `distribution` have their initial values: `min = MaxInt32`,
`max = 0`, `distribution` empty. -/
theorem single_bucket_run (wallMinute : Time → Time) (ts : List Time) (k : Int)
    (h : ∀ k' ∈ stepKeys wallMinute initStats ts, k' = k) (n : Nat) :
    (recordAll wallMinute initStats (ts.take n)).min = MaxInt32 ∧
    (recordAll wallMinute initStats (ts.take n)).max = 0 ∧
    (recordAll wallMinute initStats (ts.take n)).distribution = [] := by
  have hinv := SingleBucketInv_recordAll wallMinute k (ts.take n) initStats
    ⟨rfl, rfl, rfl, Or.inl rfl⟩ (fun k' hk' => h k' (stepKeys_take _ _ _ _ _ hk'))
  exact ⟨hinv.1, hinv.2.1, hinv.2.2.1⟩

/-- C12 on a run of four events, three of them within elapsed minute 1 and
out of order. -/
theorem single_bucket_run_witness :
    (∀ k' ∈ stepKeys sameZoneMinute initStats
        [Time.Unix 0 0, Time.Unix 60 0, Time.Unix 100 0, Time.Unix 70 0], k' = 1) ∧
    (recordAll sameZoneMinute initStats
        ([Time.Unix 0 0, Time.Unix 60 0, Time.Unix 100 0, Time.Unix 70 0].take 4)).min =
      MaxInt32 :=
  ⟨by simp only [stepKeys, bucketKey_eq_int, recordStep_eq_int]; decide,
   (single_bucket_run sameZoneMinute
      [Time.Unix 0 0, Time.Unix 60 0, Time.Unix 100 0, Time.Unix 70 0] 1
      (by simp only [stepKeys, bucketKey_eq_int, recordStep_eq_int]; decide) 4).1⟩

/-! ## Claim C19: out-of-order events -/

theorem minutesElapsed_eq_int (s : Stats) :
    minutesElapsed s = (s.endedAt.Sub s.startedAt).tdiv Minute := by
  rw [minutesElapsed, truncInt_Minutes]

theorem CurrentKeyInv_recordStep (wallMinute : Time → Time) (s : Stats) (t : Time)
    (h : CurrentKeyInv s) : CurrentKeyInv (recordStep wallMinute s t) := by
  rcases recordStep_cases wallMinute s t with ⟨hs, e⟩ | ⟨hs, e⟩
  · rw [e]
    rcases h with h | ⟨h, _⟩
    · exact Or.inl h
    · rw [hs] at h; exact Bool.noConfusion h
  · rw [e]
    obtain ⟨v, hv⟩ := updateBucket_history wallMinute
      { s with count := s.count + 1, endedAt := maxTime t s.endedAt } (bucketKey s t)
    have hv' : (preReset wallMinute s t).history = s.history.set (bucketKey s t) v := hv
    have hst : (preReset wallMinute s t).startedAt = s.startedAt :=
      updateBucket_startedAt wallMinute _ _
    have hen : (preReset wallMinute s t).endedAt = maxTime t s.endedAt :=
      updateBucket_endedAt wallMinute _ _
    unfold resetIfFull
    split
    · exact Or.inl rfl
    · right
      refine ⟨by rw [hst]; exact hs, ?_⟩
      have hm : minutesElapsed (preReset wallMinute s t) = bucketKey s t := by
        unfold minutesElapsed bucketKey
        rw [hst, hen]
      rw [hm, hv', GoMap.get?_set_self]
      rfl

theorem CurrentKeyInv_reachable (wallMinute : Time → Time) (ts : List Time) :
    CurrentKeyInv (recordAll wallMinute initStats ts) :=
  recordAll_invariant wallMinute CurrentKeyInv
    (fun s t h => CurrentKeyInv_recordStep wallMinute s t h) ts initStats (Or.inl rfl)

theorem recordStep_of_not_later (wallMinute : Time → Time) (s : Stats) (t : Time)
    (hinv : CurrentKeyInv s) (hs : s.startedAt.IsZero = false) (ht : t.ns ≤ s.endedAt.ns) :
    (recordStep wallMinute s t).count = s.count + 1 ∧
    (recordStep wallMinute s t).endedAt = s.endedAt ∧
    (recordStep wallMinute s t).min = s.min ∧
    (recordStep wallMinute s t).max = s.max ∧
    (recordStep wallMinute s t).distribution = s.distribution := by
  have hmax : maxTime t s.endedAt = s.endedAt := maxTime_of_le _ _ ht
  refine ⟨recordStep_count _ _ _, ?_, ?_⟩
  · rw [recordStep_endedAt, hs, hmax]; rfl
  · rw [recordStep_of_set _ _ _ hs, resetIfFull_min, resetIfFull_max, resetIfFull_distribution]
    have hk : bucketKey s t = minutesElapsed s := by
      unfold bucketKey minutesElapsed
      rw [hmax]
    rw [preReset, hk]
    rcases hinv with h | ⟨_, h⟩
    · rw [updateBucket_of_none_of_le wallMinute
        { s with count := s.count + 1, endedAt := maxTime t s.endedAt } _
        (by simp [h, GoMap.get?]) (by simp [h, GoMap.len])]
      exact ⟨rfl, rfl, rfl⟩
    · obtain ⟨v, hv⟩ := Option.isSome_iff_exists.mp h
      rw [updateBucket_of_some wallMinute
        { s with count := s.count + 1, endedAt := maxTime t s.endedAt } _ v hv]
      exact ⟨rfl, rfl, rfl⟩

/-- C19 (out-of-order events do not advance bucketing): in every state
reachable from `initStats` by record steps with `startedAt` set, recording an
event whose instant is not later than the current `endedAt` increments `count`
by exactly one and leaves `endedAt`, `min`, `max` and `distribution` unchanged,
also right after a histogram clear. -/
theorem out_of_order_event (wallMinute : Time → Time) (ts : List Time) (t : Time)
    (hs : (recordAll wallMinute initStats ts).startedAt.IsZero = false)
    (ht : t.ns ≤ (recordAll wallMinute initStats ts).endedAt.ns) :
    (recordStep wallMinute (recordAll wallMinute initStats ts) t).count =
      (recordAll wallMinute initStats ts).count + 1 ∧
    (recordStep wallMinute (recordAll wallMinute initStats ts) t).endedAt =
      (recordAll wallMinute initStats ts).endedAt ∧
    (recordStep wallMinute (recordAll wallMinute initStats ts) t).min =
      (recordAll wallMinute initStats ts).min ∧
    (recordStep wallMinute (recordAll wallMinute initStats ts) t).max =
      (recordAll wallMinute initStats ts).max ∧
    (recordStep wallMinute (recordAll wallMinute initStats ts) t).distribution =
      (recordAll wallMinute initStats ts).distribution :=
  recordStep_of_not_later wallMinute _ t (CurrentKeyInv_reachable wallMinute ts) hs ht

set_option maxRecDepth 100000 in
/-- C19 right after a histogram clear: the run of one event per minute that has
just opened its 60th key (empty histogram), followed by an event one minute
older than `endedAt`. -/
theorem out_of_order_event_witness :
    (recordAll sameZoneMinute initStats (minuteRun (Time.Unix 0 0) 61)).history = [] ∧
    (recordStep sameZoneMinute (recordAll sameZoneMinute initStats (minuteRun (Time.Unix 0 0) 61))
      (Time.Unix 3540 0)).distribution =
      (recordAll sameZoneMinute initStats (minuteRun (Time.Unix 0 0) 61)).distribution :=
  ⟨by rw [recordAll_eq_int]; decide,
   (out_of_order_event sameZoneMinute (minuteRun (Time.Unix 0 0) 61) (Time.Unix 3540 0)
      (by rw [recordAll_eq_int]; decide) (by rw [recordAll_eq_int]; decide)).2.2.2.2⟩

/-! ## Claim C16: the distribution is append-only -/

theorem GoMap.totalLength_set_of_get?_none (m : GoMap (List Time)) (k : Int) (v : List Time)
    (h : m.get? k = none) : (m.set k v).totalLength = m.totalLength + v.length := by
  induction m with
  | nil => simp [GoMap.set, GoMap.totalLength]
  | cons p m ih =>
    obtain ⟨k1, v1⟩ := p
    by_cases hk : k1 = k
    · simp [GoMap.get?, hk] at h
    · simp only [GoMap.get?, hk, if_false] at h
      have := ih h
      simp only [GoMap.totalLength] at this
      simp [GoMap.set, GoMap.totalLength, hk, this]
      omega

theorem GoMap.totalLength_set_of_get?_some (m : GoMap (List Time)) (k : Int)
    (v w : List Time) (h : m.get? k = some w) :
    (m.set k v).totalLength + w.length = m.totalLength + v.length := by
  induction m with
  | nil => simp [GoMap.get?] at h
  | cons p m ih =>
    obtain ⟨k1, v1⟩ := p
    by_cases hk : k1 = k
    · simp [GoMap.get?, hk] at h
      subst h
      simp [GoMap.set, GoMap.totalLength, hk]
      omega
    · simp only [GoMap.get?, hk, if_false] at h
      have := ih h
      simp only [GoMap.totalLength] at this
      simp [GoMap.set, GoMap.totalLength, hk]
      omega

theorem GoMap.totalLength_set_append (m : GoMap (List Time)) (k : Int) (x : Time) :
    (m.set k (m.times k ++ [x])).totalLength = m.totalLength + 1 := by
  unfold GoMap.times
  cases h : m.get? k with
  | none =>
    rw [GoMap.totalLength_set_of_get?_none _ _ _ h]
    simp
  | some w =>
    have := GoMap.totalLength_set_of_get?_some m k (w ++ [x]) w h
    simp only [Option.getD_some, List.length_append, List.length_singleton] at this ⊢
    omega

theorem GoMap.times_set_append (m : GoMap (List Time)) (k k' : Int) (x : Time) :
    (m.set k (m.times k ++ [x])).times k' =
      if k' = k then m.times k ++ [x] else m.times k' := by
  by_cases h : k' = k
  · subst h
    simp [GoMap.times, GoMap.get?_set_self]
  · simp only [h, if_false]
    unfold GoMap.times
    rw [GoMap.get?_set_ne _ _ _ _ h]

/-- The bucket update leaves `distribution` alone or appends one timestamp,
the wall-clock minute of `endedAt`, under one key. -/
theorem updateBucket_distribution (wallMinute : Time → Time) (s : Stats) (m : Int) :
    (updateBucket wallMinute s m).distribution = s.distribution ∨
    ∃ c, (updateBucket wallMinute s m).distribution =
      s.distribution.set c (s.distribution.times c ++ [wallMinute s.endedAt]) := by
  cases h : s.history.get? m with
  | some val => rw [updateBucket_of_some _ _ _ _ h]; exact Or.inl rfl
  | none =>
    by_cases hl : s.history.len > 1
    · rw [updateBucket_of_none_of_gt _ _ _ h hl]; exact Or.inr ⟨_, rfl⟩
    · rw [updateBucket_of_none_of_le _ _ _ h (not_lt.mp hl)]; exact Or.inl rfl

theorem recordStep_distribution (wallMinute : Time → Time) (s : Stats) (t : Time) :
    (recordStep wallMinute s t).distribution = s.distribution ∨
    ∃ c, (recordStep wallMinute s t).distribution =
      s.distribution.set c (s.distribution.times c ++ [wallMinute (maxTime t s.endedAt)]) := by
  rcases recordStep_cases wallMinute s t with ⟨_, e⟩ | ⟨_, e⟩
  · rw [e]; exact Or.inl rfl
  · rw [e, resetIfFull_distribution]
    exact updateBucket_distribution wallMinute
      { s with count := s.count + 1, endedAt := maxTime t s.endedAt } (bucketKey s t)

/-- C16 (distribution is append-only): for every state, every event instant
and every key `k`, the sequence `distribution[k]` before the record step is a
prefix of `distribution[k]` after it, and a single step appends at most one
timestamp in total across all keys. -/
theorem distribution_append_only (wallMinute : Time → Time) (s : Stats) (t : Time) (k : Int) :
    s.distribution.times k <+: (recordStep wallMinute s t).distribution.times k ∧
    (recordStep wallMinute s t).distribution.totalLength ≤ s.distribution.totalLength + 1 := by
  rcases recordStep_distribution wallMinute s t with e | ⟨c, e⟩
  · rw [e]
    exact ⟨List.prefix_refl _, Nat.le_succ _⟩
  · rw [e, GoMap.times_set_append, GoMap.totalLength_set_append]
    refine ⟨?_, le_refl _⟩
    split
    · next h => rw [h]; exact List.prefix_append _ _
    · exact List.prefix_refl _

/-! ## Claim C15: the keys of the distribution -/

theorem eventTime_300000 : eventTime 300000 = Time.Unix 300 0 := by
  have h := eventTime_seconds 300
  norm_num at h
  exact h

theorem recordStep_distribution_keys (wallMinute : Time → Time) (s : Stats) (t : Time)
    (c : Int) (hc : c ∈ (recordStep wallMinute s t).distribution.keys) :
    c ∈ s.distribution.keys ∨
    (s.startedAt.IsZero = false ∧ s.history.get? (bucketKey s t) = none ∧
      s.history.len > 1 ∧ c = s.history.count (bucketKey s t - 1)) := by
  rcases recordStep_cases wallMinute s t with ⟨_, e⟩ | ⟨hs, e⟩
  · rw [e] at hc; exact Or.inl hc
  · rw [e, resetIfFull_distribution, preReset] at hc
    cases h : s.history.get? (bucketKey s t) with
    | some val =>
      rw [updateBucket_of_some wallMinute
        { s with count := s.count + 1, endedAt := maxTime t s.endedAt } _ val h] at hc
      exact Or.inl hc
    | none =>
      by_cases hl : s.history.len > 1
      · rw [updateBucket_of_none_of_gt wallMinute
          { s with count := s.count + 1, endedAt := maxTime t s.endedAt } _ h hl] at hc
        rcases (GoMap.mem_keys_set _ _ _ _).mp hc with hc | hc
        · exact Or.inl hc
        · exact Or.inr ⟨hs, rfl, hl, hc⟩
      · rw [updateBucket_of_none_of_le wallMinute
          { s with count := s.count + 1, endedAt := maxTime t s.endedAt } _ h
          (not_lt.mp hl)] at hc
        exact Or.inl hc

theorem recordAll_distribution_keys (wallMinute : Time → Time) (ts : List Time) (s : Stats)
    (c : Int) (hc : c ∈ (recordAll wallMinute s ts).distribution.keys) :
    c ∈ s.distribution.keys ∨
    ∃ pre t post, ts = pre ++ t :: post ∧
      (recordAll wallMinute s pre).startedAt.IsZero = false ∧
      (recordAll wallMinute s pre).history.get?
        (bucketKey (recordAll wallMinute s pre) t) = none ∧
      (recordAll wallMinute s pre).history.len > 1 ∧
      c = (recordAll wallMinute s pre).history.count
        (bucketKey (recordAll wallMinute s pre) t - 1) := by
  induction ts generalizing s with
  | nil => exact Or.inl hc
  | cons t ts ih =>
    rw [recordAll_cons] at hc
    rcases ih _ hc with h | ⟨pre, u, post, hts, h1, h2, h3, h4⟩
    · rcases recordStep_distribution_keys wallMinute s t c h with h | ⟨h1, h2, h3, h4⟩
      · exact Or.inl h
      · exact Or.inr ⟨[], t, ts, rfl, h1, h2, h3, h4⟩
    · refine Or.inr ⟨t :: pre, u, post, ?_, ?_⟩
      · rw [hts]; rfl
      · rw [recordAll_cons]
        exact ⟨h1, h2, h3, h4⟩

/-- C15 (a key can be 0, the count of no opened bucket): after events at
seconds 0, 60, 120 and 300 the histogram has held the keys 1, 2 and 5 only,
with count 1 each, and `distribution` has the single key `0`, read under the
key 4 that was never opened; `min` is `0`. -/
theorem distribution_key_zero :
    (recordAll sameZoneMinute initStats
      [eventTime 0, eventTime 60000, eventTime 120000]).history = [(1, 1), (2, 1)] ∧
    (recordAll sameZoneMinute initStats
      [eventTime 0, eventTime 60000, eventTime 120000, eventTime 300000]).history =
        [(1, 1), (2, 1), (5, 1)] ∧
    (recordAll sameZoneMinute initStats
      [eventTime 0, eventTime 60000, eventTime 120000, eventTime 300000]).distribution.keys =
        [0] ∧
    (recordAll sameZoneMinute initStats
      [eventTime 0, eventTime 60000, eventTime 120000, eventTime 300000]).min = 0 ∧
    ¬ (∀ k ∈ (recordAll sameZoneMinute initStats
      [eventTime 0, eventTime 60000, eventTime 120000, eventTime 300000]).distribution.keys,
        1 ≤ k) := by
  simp only [eventTime_0, eventTime_60000, eventTime_120000, eventTime_300000, recordAll_eq_int]
  decide

/-- C15 as amended: in every state reachable from `initStats` by record steps,
every key `c` of `distribution` is the value read from the histogram under the
key `m - 1` (`0` when the histogram holds no such key) by some record step of
the run that opened a new key `m` while the histogram held more than one key;
so every key is at least 0. -/
theorem distribution_keys_are_read_counts (wallMinute : Time → Time) (ts : List Time)
    (c : Int) (hc : c ∈ (recordAll wallMinute initStats ts).distribution.keys) :
    0 ≤ c ∧
    ∃ pre t post, ts = pre ++ t :: post ∧
      (recordAll wallMinute initStats pre).startedAt.IsZero = false ∧
      (recordAll wallMinute initStats pre).history.get?
        (bucketKey (recordAll wallMinute initStats pre) t) = none ∧
      (recordAll wallMinute initStats pre).history.len > 1 ∧
      c = (recordAll wallMinute initStats pre).history.count
        (bucketKey (recordAll wallMinute initStats pre) t - 1) := by
  refine ⟨((MinMaxInv_reachable wallMinute ts).2.1 c hc).2.2, ?_⟩
  rcases recordAll_distribution_keys wallMinute ts initStats c hc with h | h
  · exact absurd h (List.not_mem_nil c)
  · exact h

/-- The amended C15 on the run with events at seconds 0, 60, 120 and 300: the
key `0` of its distribution was read by one of its steps. -/
theorem distribution_keys_are_read_counts_witness :
    (0 : Int) ∈ (recordAll sameZoneMinute initStats
      [Time.Unix 0 0, Time.Unix 60 0, Time.Unix 120 0, Time.Unix 300 0]).distribution.keys ∧
    ∃ pre t post,
      [Time.Unix 0 0, Time.Unix 60 0, Time.Unix 120 0, Time.Unix 300 0] = pre ++ t :: post ∧
      (recordAll sameZoneMinute initStats pre).history.len > 1 ∧
      (0 : Int) = (recordAll sameZoneMinute initStats pre).history.count
        (bucketKey (recordAll sameZoneMinute initStats pre) t - 1) :=
  ⟨by rw [recordAll_eq_int]; decide,
   match (distribution_keys_are_read_counts sameZoneMinute
      [Time.Unix 0 0, Time.Unix 60 0, Time.Unix 120 0, Time.Unix 300 0] 0
      (by rw [recordAll_eq_int]; decide)).2 with
   | ⟨pre, t, post, h1, _, _, h4, h5⟩ => ⟨pre, t, post, h1, h4, h5⟩⟩

/-! ## Claim C17: the bucket key truncates toward zero -/

theorem floor_div_minute (d : Int) : ⌊(d : ℚ) / (Minute : ℚ)⌋ = d / Minute := by
  have h := Rat.floor_intCast_div_natCast d 60000000000
  have hM : ((Minute : Int) : ℚ) = ((60000000000 : ℕ) : ℚ) := by
    unfold Minute; norm_num
  rw [hM, h]
  rfl

theorem tdiv_minute_of_nonneg (d : Int) (h : 0 ≤ d) : d.tdiv Minute = d / Minute :=
  Int.tdiv_eq_ediv h (by decide)

theorem tdiv_minute_of_dvd (d : Int) (h : d % Minute = 0) : d.tdiv Minute = d / Minute := by
  have hM : Minute = 60000000000 := rfl
  rw [hM] at h ⊢
  by_cases hd : 0 ≤ d
  · exact Int.tdiv_eq_ediv hd (by norm_num)
  · have h3 : d.tdiv 60000000000 = -((-d).tdiv 60000000000) := by
      rw [Int.neg_tdiv, neg_neg]
    rw [h3, Int.tdiv_eq_ediv (by omega) (by norm_num)]
    omega

theorem tdiv_minute_of_neg (d : Int) (hd : d < 0) (h : d % Minute ≠ 0) :
    d.tdiv Minute = d / Minute + 1 := by
  have hM : Minute = 60000000000 := rfl
  rw [hM] at h ⊢
  have h3 : d.tdiv 60000000000 = -((-d).tdiv 60000000000) := by
    rw [Int.neg_tdiv, neg_neg]
  rw [h3, Int.tdiv_eq_ediv (by omega) (by norm_num)]
  omega

theorem minutesElapsed_spec (s : Stats) :
    minutesElapsed s = (s.endedAt.Sub s.startedAt).tdiv Minute ∧
    (0 ≤ s.endedAt.Sub s.startedAt →
      minutesElapsed s = ⌊((s.endedAt.Sub s.startedAt : Int) : ℚ) / (Minute : ℚ)⌋) ∧
    ((s.endedAt.Sub s.startedAt) % Minute = 0 →
      minutesElapsed s = ⌊((s.endedAt.Sub s.startedAt : Int) : ℚ) / (Minute : ℚ)⌋) ∧
    (s.endedAt.Sub s.startedAt < 0 → (s.endedAt.Sub s.startedAt) % Minute ≠ 0 →
      minutesElapsed s = ⌊((s.endedAt.Sub s.startedAt : Int) : ℚ) / (Minute : ℚ)⌋ + 1) := by
  rw [floor_div_minute, minutesElapsed_eq_int]
  exact ⟨rfl, tdiv_minute_of_nonneg _, tdiv_minute_of_dvd _, tdiv_minute_of_neg _⟩

/-! ## A run that fills the histogram -/

set_option maxRecDepth 100000 in
/-- C11 on the run of one event per minute: the event of minute 60 brings the
key count to 60, and its step ends with the empty histogram. -/
theorem histogram_bound_witness :
    (preReset sameZoneMinute (recordAll sameZoneMinute initStats (minuteRun (Time.Unix 0 0) 60))
      (Time.Unix 3600 0)).history.len = HistoryLength ∧
    (recordStep sameZoneMinute (recordAll sameZoneMinute initStats (minuteRun (Time.Unix 0 0) 60))
      (Time.Unix 3600 0)).history = [] :=
  ⟨by simp only [preReset, bucketKey_eq_int, recordAll_eq_int]; decide,
   (histogram_bound sameZoneMinute (minuteRun (Time.Unix 0 0) 60) (Time.Unix 3600 0)).2.2.2
      (by rw [recordAll_eq_int]; decide)
      (by simp only [preReset, bucketKey_eq_int, recordAll_eq_int]; decide)⟩

/-! ## Rounding to `float64` -/

theorem roundEven_sub_le (x : ℚ) : |x - (roundEven x : ℚ)| ≤ 1 / 2 := by
  have h0 : (⌊x⌋ : ℚ) ≤ x := Int.floor_le x
  have h1 : x < (⌊x⌋ : ℚ) + 1 := Int.lt_floor_add_one x
  unfold roundEven
  split
  · rw [abs_le]; constructor <;> linarith
  · split
    · push_cast; rw [abs_le]; constructor <;> linarith
    · split
      · rw [abs_le]; constructor <;> linarith
      · push_cast; rw [abs_le]; constructor <;> linarith

theorem roundEven_nearest (x : ℚ) (k : Int) : |x - (roundEven x : ℚ)| ≤ |x - (k : ℚ)| := by
  by_cases hk : k = roundEven x
  · rw [hk]
  · have h := roundEven_sub_le x
    have hd : (1 : ℚ) ≤ |((roundEven x : Int) : ℚ) - (k : ℚ)| := by
      have : (1 : Int) ≤ |roundEven x - k| := by
        have : roundEven x - k ≠ 0 := fun e => hk (by omega)
        exact Int.one_le_abs this
      exact_mod_cast this
    have htri : |((roundEven x : Int) : ℚ) - (k : ℚ)| ≤
        |x - (roundEven x : ℚ)| + |x - (k : ℚ)| := by
      have := abs_sub_le ((roundEven x : Int) : ℚ) x (k : ℚ)
      rwa [abs_sub_comm ((roundEven x : Int) : ℚ) x] at this
    linarith

theorem roundF64_nearest (x y : ℚ) (hy : IsF64 y) : |roundF64 x - x| ≤ |y - x| := by
  unfold roundF64
  split
  · next hx => subst hx; simp
  · next hx =>
    have hpos : (0 : ℚ) < |x| := abs_pos.mpr hx
    have hle : (2 : ℚ) ^ Int.log 2 |x| ≤ |x| := Int.zpow_log_le_self (by norm_num) hpos
    generalize Int.log 2 |x| = e at hle
    have hu : (0 : ℚ) < 2 ^ (e - 52) := zpow_pos (by norm_num) _
    obtain ⟨m, g, hm, rfl⟩ := hy
    -- distance of `x` to a grid point `k * u`
    have grid : ∀ k : Int,
        |(roundEven (x / 2 ^ (e - 52)) : ℚ) * 2 ^ (e - 52) - x| ≤
          |(k : ℚ) * 2 ^ (e - 52) - x| := by
      intro k
      have h := roundEven_nearest (x / 2 ^ (e - 52)) k
      have e1 : (roundEven (x / 2 ^ (e - 52)) : ℚ) * 2 ^ (e - 52) - x =
          -((x / 2 ^ (e - 52) - (roundEven (x / 2 ^ (e - 52)) : ℚ)) * 2 ^ (e - 52)) := by
        field_simp
        ring
      have e2 : (k : ℚ) * 2 ^ (e - 52) - x =
          -((x / 2 ^ (e - 52) - (k : ℚ)) * 2 ^ (e - 52)) := by
        field_simp
        ring
      rw [e1, e2, abs_neg, abs_neg, abs_mul, abs_mul, abs_of_pos hu]
      exact mul_le_mul_of_nonneg_right h (le_of_lt hu)
    by_cases hg : e - 52 ≤ g
    · -- `y` is on the grid
      obtain ⟨j, hj⟩ : ∃ j : ℕ, g = e - 52 + (j : Int) := ⟨(g - (e - 52)).toNat, by omega⟩
      have hy : (m : ℚ) * 2 ^ g = ((m * 2 ^ j : Int) : ℚ) * 2 ^ (e - 52) := by
        rw [hj, zpow_add₀ (by norm_num : (2 : ℚ) ≠ 0), zpow_natCast]
        push_cast
        ring
      rw [hy]
      exact grid _
    · -- `y` is below the binade of `x`
      have hg' : g ≤ e - 53 := by omega
      have hm' : |(m : ℚ)| ≤ 2 ^ 53 - 1 := by
        have : |m| ≤ 2 ^ 53 - 1 := by omega
        exact_mod_cast this
      have h2g : (2 : ℚ) ^ g ≤ 2 ^ (e - 53) := zpow_le_zpow_right₀ (by norm_num) hg'
      have h2g0 : (0 : ℚ) < 2 ^ g := zpow_pos (by norm_num) _
      have he53 : (0 : ℚ) < 2 ^ (e - 53) := zpow_pos (by norm_num) _
      have hesplit : (2 : ℚ) ^ e = 2 ^ 53 * 2 ^ (e - 53) := by
        rw [← zpow_natCast, ← zpow_add₀ (by norm_num : (2 : ℚ) ≠ 0)]
        congr 1; omega
      have hyabs : |(m : ℚ) * 2 ^ g| < 2 ^ e := by
        rw [abs_mul, abs_of_pos h2g0, hesplit]
        calc |(m : ℚ)| * 2 ^ g ≤ (2 ^ 53 - 1) * 2 ^ (e - 53) :=
              mul_le_mul hm' h2g (le_of_lt h2g0) (by norm_num)
          _ < 2 ^ 53 * 2 ^ (e - 53) := by nlinarith
      have heu : (2 : ℚ) ^ e = 2 ^ 52 * 2 ^ (e - 52) := by
        rw [← zpow_natCast, ← zpow_add₀ (by norm_num : (2 : ℚ) ≠ 0)]
        congr 1; omega
      have hfar : |x| - 2 ^ e < |(m : ℚ) * 2 ^ g - x| := by
        have := abs_sub_abs_le_abs_sub x ((m : ℚ) * 2 ^ g)
        rw [abs_sub_comm x] at this
        linarith
      rcases lt_or_gt_of_ne hx with hneg | hpos'
      · have h := grid (-(2 ^ 52))
        have e3 : ((-(2 ^ 52) : Int) : ℚ) * 2 ^ (e - 52) - x = -x - 2 ^ e := by
          rw [heu]; push_cast; ring
        rw [e3] at h
        rw [abs_of_neg hneg] at hle hfar
        rw [abs_of_nonneg (by linarith : (0 : ℚ) ≤ -x - 2 ^ e)] at h
        linarith
      · have h := grid (2 ^ 52)
        have e3 : ((2 ^ 52 : Int) : ℚ) * 2 ^ (e - 52) - x = -(x - 2 ^ e) := by
          rw [heu]; push_cast; ring
        rw [e3, abs_neg] at h
        rw [abs_of_pos hpos'] at hle hfar
        rw [abs_of_nonneg (by linarith : (0 : ℚ) ≤ x - 2 ^ e)] at h
        linarith

theorem roundF64_of_isF64 (x : ℚ) (h : IsF64 x) : roundF64 x = x := by
  have := roundF64_nearest x x h
  rw [sub_self, abs_zero] at this
  have h0 := abs_nonneg (roundF64 x - x)
  have : roundF64 x - x = 0 := abs_eq_zero.mp (le_antisymm this h0)
  linarith

theorem le_roundF64 (a x : ℚ) (ha : IsF64 a) (h : a ≤ x) : a ≤ roundF64 x := by
  have hn := roundF64_nearest x a ha
  rw [abs_sub_comm a x, abs_of_nonneg (sub_nonneg.mpr h)] at hn
  have := neg_abs_le (roundF64 x - x)
  linarith

theorem roundF64_le (b x : ℚ) (hb : IsF64 b) (h : x ≤ b) : roundF64 x ≤ b := by
  have hn := roundF64_nearest x b hb
  rw [abs_of_nonneg (sub_nonneg.mpr h)] at hn
  have := le_abs_self (roundF64 x - x)
  linarith

/-- Beyond a `float64` value `b`, rounding goes no further than the mirror
image of `b`. -/
theorem roundF64_le_mirror (b x : ℚ) (hb : IsF64 b) (h : b ≤ x) : roundF64 x ≤ 2 * x - b := by
  have hn := roundF64_nearest x b hb
  rw [abs_sub_comm b x, abs_of_nonneg (sub_nonneg.mpr h)] at hn
  have := le_abs_self (roundF64 x - x)
  linarith

theorem mirror_le_roundF64 (a x : ℚ) (ha : IsF64 a) (h : x ≤ a) : 2 * x - a ≤ roundF64 x := by
  have hn := roundF64_nearest x a ha
  rw [abs_of_nonneg (sub_nonneg.mpr h)] at hn
  have := neg_abs_le (roundF64 x - x)
  linarith

theorem isF64_intCast (n : Int) (h : |n| < 2 ^ 53) : IsF64 (n : ℚ) :=
  ⟨n, 0, h, by simp⟩

theorem isF64_zero : IsF64 0 := ⟨0, 0, by norm_num, by simp⟩

theorem roundF64_intCast (n : Int) (h : |n| < 2 ^ 53) : roundF64 (n : ℚ) = n :=
  roundF64_of_isF64 _ (isF64_intCast n h)

/-! ## The bucket key in `float64` arithmetic -/

theorem isF64_of_scaled (x : ℚ) (m : Int) (j : ℕ) (hm : |m| < 2 ^ 53)
    (hx : x * 2 ^ j = (m : ℚ)) : IsF64 x := by
  refine ⟨m, -(j : Int), hm, ?_⟩
  rw [zpow_neg, zpow_natCast, ← hx]
  field_simp

/-- Rounding a sum `q + r` of a small nonnegative integer and a fraction that
stays `17 / 2^40` short of 1 does not reach `q + 1`. -/
theorem roundF64_add_frac_nonneg (q : Int) (r : ℚ) (hq0 : 0 ≤ q) (hq : q < 262144)
    (hr0 : 0 ≤ r) (hr : r ≤ 1 - 17 / 2 ^ 40) :
    (q : ℚ) ≤ roundF64 ((q : ℚ) + r) ∧ roundF64 ((q : ℚ) + r) < (q : ℚ) + 1 := by
  have hqa : IsF64 (q : ℚ) := isF64_intCast q (by rw [abs_of_nonneg hq0]; omega)
  have hb : IsF64 ((q : ℚ) + 1 - 1 / 2 ^ 35) := by
    apply isF64_of_scaled _ ((q + 1) * 2 ^ 35 - 1) 35
    · rw [abs_of_nonneg (by omega)]; omega
    · push_cast; ring
  refine ⟨le_roundF64 _ _ hqa (by linarith), ?_⟩
  by_cases hx : (q : ℚ) + r ≤ (q : ℚ) + 1 - 1 / 2 ^ 35
  · have := roundF64_le _ _ hb hx
    have h35 : (0 : ℚ) < 1 / 2 ^ 35 := by positivity
    linarith
  · have := roundF64_le_mirror _ _ hb (le_of_lt (not_le.mp hx))
    have h1 : (2 : ℚ) * (1 - 17 / 2 ^ 40) - (1 - 1 / 2 ^ 35) < 1 := by norm_num
    linarith

theorem roundF64_add_frac_nonpos (q : Int) (r : ℚ) (hq0 : q ≤ 0) (hq : -262144 < q)
    (hr0 : r ≤ 0) (hr : -(1 - 17 / 2 ^ 40) ≤ r) :
    (q : ℚ) - 1 < roundF64 ((q : ℚ) + r) ∧ roundF64 ((q : ℚ) + r) ≤ (q : ℚ) := by
  have hqa : IsF64 (q : ℚ) := isF64_intCast q (by rw [abs_of_nonpos hq0]; omega)
  have ha : IsF64 ((q : ℚ) - 1 + 1 / 2 ^ 35) := by
    apply isF64_of_scaled _ ((q - 1) * 2 ^ 35 + 1) 35
    · rw [abs_of_nonpos (by omega)]; omega
    · push_cast; ring
  refine ⟨?_, roundF64_le _ _ hqa (by linarith)⟩
  by_cases hx : (q : ℚ) - 1 + 1 / 2 ^ 35 ≤ (q : ℚ) + r
  · have := le_roundF64 _ _ ha hx
    have h35 : (0 : ℚ) < 1 / 2 ^ 35 := by positivity
    linarith
  · have := mirror_le_roundF64 _ _ ha (le_of_lt (not_le.mp hx))
    have h1 : (2 : ℚ) * (1 - 17 / 2 ^ 40) - (1 - 1 / 2 ^ 35) < 1 := by norm_num
    linarith

theorem isF64_frac_bound : IsF64 (1 - 17 / 2 ^ 40) := by
  apply isF64_of_scaled _ (2 ^ 40 - 17) 40
  · norm_num
  · norm_num

theorem isF64_neg (x : ℚ) (h : IsF64 x) : IsF64 (-x) := by
  obtain ⟨m, g, hm, rfl⟩ := h
  exact ⟨-m, g, by rwa [abs_neg], by push_cast; ring⟩

/-- Below `2^18` minutes the `float64` computation of line 83 gives the
truncated quotient: the key of the exact model. -/
theorem truncInt_MinutesF64 (d : Int) (h1 : -(262144 * Minute) < d)
    (h2 : d < 262144 * Minute) : truncInt (Duration.MinutesF64 d) = d.tdiv Minute := by
  have hM : Minute = 60000000000 := rfl
  rw [hM] at h1 h2
  unfold Duration.MinutesF64
  rw [hM]
  have hdiv := Int.tdiv_add_tmod d 60000000000
  have hc : (60 : ℚ) * 1000000000 = 60000000000 := by norm_num
  rw [hc]
  by_cases hd : 0 ≤ d
  · have hq : d.tdiv 60000000000 = d / 60000000000 := Int.tdiv_eq_ediv hd (by norm_num)
    have hr : d.tmod 60000000000 = d % 60000000000 := by
      have := Int.ediv_add_emod d 60000000000
      omega
    rw [hq, hr]
    have hq0 : 0 ≤ d / 60000000000 := by omega
    have hqb : d / 60000000000 < 262144 := by omega
    have hr0 : 0 ≤ d % 60000000000 := by omega
    have hrb : d % 60000000000 < 60000000000 := by omega
    generalize d / 60000000000 = q at hq0 hqb
    generalize d % 60000000000 = r at hr0 hrb
    rw [roundF64_intCast q (by rw [abs_of_nonneg hq0]; omega),
      roundF64_intCast r (by rw [abs_of_nonneg hr0]; omega)]
    have hy0 : (0 : ℚ) ≤ (r : ℚ) / 60000000000 := by
      have : (0 : ℚ) ≤ (r : ℚ) := by exact_mod_cast hr0
      positivity
    have hy1 : (r : ℚ) / 60000000000 ≤ 1 - 17 / 2 ^ 40 := by
      have : (r : ℚ) ≤ 59999999999 := by
        have : r ≤ 59999999999 := by omega
        exact_mod_cast this
      rw [div_le_iff₀ (by norm_num)]
      norm_num
      linarith
    have hf0 := le_roundF64 _ _ isF64_zero hy0
    have hf1 := roundF64_le _ _ isF64_frac_bound hy1
    obtain ⟨hlo, hhi⟩ := roundF64_add_frac_nonneg q _ hq0 hqb hf0 hf1
    unfold truncInt
    have hnn : (0 : ℚ) ≤ roundF64 ((q : ℚ) + roundF64 ((r : ℚ) / 60000000000)) := by
      have : (0 : ℚ) ≤ (q : ℚ) := by exact_mod_cast hq0
      linarith
    rw [if_pos hnn, Int.floor_eq_iff]
    exact ⟨hlo, hhi⟩
  · have hd' : d < 0 := not_le.mp hd
    have hq : d.tdiv 60000000000 = -((-d) / 60000000000) := by
      have h3 : d.tdiv 60000000000 = -((-d).tdiv 60000000000) := by
        rw [Int.neg_tdiv, neg_neg]
      rw [h3, Int.tdiv_eq_ediv (by omega) (by norm_num)]
    have hr : d.tmod 60000000000 = -((-d) % 60000000000) := by
      have := Int.ediv_add_emod (-d) 60000000000
      omega
    rw [hq, hr]
    have hq0 : 0 ≤ (-d) / 60000000000 := by omega
    have hqb : (-d) / 60000000000 < 262144 := by omega
    have hr0 : 0 ≤ (-d) % 60000000000 := by omega
    have hrb : (-d) % 60000000000 < 60000000000 := by omega
    generalize (-d) / 60000000000 = q at hq0 hqb
    generalize (-d) % 60000000000 = r at hr0 hrb
    rw [roundF64_intCast (-q) (by rw [abs_neg, abs_of_nonneg hq0]; omega),
      roundF64_intCast (-r) (by rw [abs_neg, abs_of_nonneg hr0]; omega)]
    have hy0 : ((-r : Int) : ℚ) / 60000000000 ≤ 0 := by
      have : ((-r : Int) : ℚ) ≤ 0 := by exact_mod_cast (by omega : -r ≤ 0)
      exact div_nonpos_of_nonpos_of_nonneg this (by norm_num)
    have hy1 : -(1 - 17 / 2 ^ 40) ≤ ((-r : Int) : ℚ) / 60000000000 := by
      have : (r : ℚ) ≤ 59999999999 := by
        have : r ≤ 59999999999 := by omega
        exact_mod_cast this
      push_cast
      rw [le_div_iff₀ (by norm_num)]
      norm_num
      linarith
    have hf0 := roundF64_le _ _ isF64_zero hy0
    have hf1 := le_roundF64 _ _ (isF64_neg _ isF64_frac_bound) hy1
    obtain ⟨hlo, hhi⟩ := roundF64_add_frac_nonpos (-q) _ (by omega) (by omega) hf0 hf1
    unfold truncInt
    split
    · next hnn =>
      have hqz : ((-q : Int) : ℚ) ≤ 0 := by exact_mod_cast (by omega : -q ≤ 0)
      have hz : roundF64 (((-q : Int) : ℚ) + roundF64 (((-r : Int) : ℚ) / 60000000000)) = 0 := by
        linarith
      have hq0' : ((-q : Int) : ℚ) = 0 := by linarith
      rw [hz, Int.floor_zero]
      exact_mod_cast hq0'.symm
    · rw [Int.ceil_eq_iff]
      exact ⟨hlo, hhi⟩

theorem minutesElapsedF64_eq (s : Stats)
    (h1 : -(262144 * Minute) < s.endedAt.Sub s.startedAt)
    (h2 : s.endedAt.Sub s.startedAt < 262144 * Minute) :
    minutesElapsedF64 s = minutesElapsed s := by
  rw [minutesElapsedF64, truncInt_MinutesF64 _ h1 h2, minutesElapsed, truncInt_Minutes]

theorem roundEven_eq_of (x : ℚ) (n : Int) (h : |x - (n : ℚ)| < 1 / 2) : roundEven x = n := by
  have h1 := roundEven_nearest x n
  have h2 : |((roundEven x : Int) : ℚ) - (n : ℚ)| < 1 := by
    have := abs_sub_le ((roundEven x : Int) : ℚ) x (n : ℚ)
    rw [abs_sub_comm ((roundEven x : Int) : ℚ) x] at this
    linarith
  have h3 : |roundEven x - n| < 1 := by exact_mod_cast h2
  have := abs_lt.mp h3
  omega

/-- Evaluation of a rounding from its binade `e` and its significand `n`. -/
theorem roundF64_eq_of (x : ℚ) (e n : Int) (h1 : (2 : ℚ) ^ e ≤ |x|)
    (h2 : |x| < (2 : ℚ) ^ (e + 1)) (h3 : |x / 2 ^ (e - 52) - (n : ℚ)| < 1 / 2) :
    roundF64 x = (n : ℚ) * 2 ^ (e - 52) := by
  have hpos : (0 : ℚ) < |x| := lt_of_lt_of_le (zpow_pos (by norm_num) _) h1
  have hx : x ≠ 0 := abs_pos.mp hpos
  have he : Int.log 2 |x| = e := by
    apply le_antisymm
    · have := (Int.lt_zpow_iff_log_lt (R := ℚ) (b := 2) (by norm_num) hpos).mp
        (by exact_mod_cast h2)
      omega
    · exact (Int.zpow_le_iff_le_log (R := ℚ) (b := 2) (by norm_num) hpos).mp
        (by exact_mod_cast h1)
  unfold roundF64
  rw [if_neg hx, he, roundEven_eq_of _ n h3]

/-- One rounding changes a number by at most `2^-53` of its size. -/
theorem roundF64_rel_error (x : ℚ) : |roundF64 x - x| ≤ |x| / 2 ^ 53 := by
  unfold roundF64
  split
  · next hx => subst hx; simp
  · next hx =>
    have hpos : (0 : ℚ) < |x| := abs_pos.mpr hx
    have hle : (2 : ℚ) ^ Int.log 2 |x| ≤ |x| := Int.zpow_log_le_self (by norm_num) hpos
    generalize Int.log 2 |x| = e at hle
    have hu : (0 : ℚ) < 2 ^ (e - 52) := zpow_pos (by norm_num) _
    have h := roundEven_sub_le (x / 2 ^ (e - 52))
    have e1 : (roundEven (x / 2 ^ (e - 52)) : ℚ) * 2 ^ (e - 52) - x =
        -((x / 2 ^ (e - 52) - (roundEven (x / 2 ^ (e - 52)) : ℚ)) * 2 ^ (e - 52)) := by
      field_simp
      ring
    have heu : (2 : ℚ) ^ e = 2 ^ 52 * 2 ^ (e - 52) := by
      rw [← zpow_natCast, ← zpow_add₀ (by norm_num : (2 : ℚ) ≠ 0)]
      congr 1; omega
    rw [e1, abs_neg, abs_mul, abs_of_pos hu, le_div_iff₀ (by norm_num)]
    rw [heu] at hle
    nlinarith [abs_nonneg (x / 2 ^ (e - 52) - (roundEven (x / 2 ^ (e - 52)) : ℚ))]

theorem roundF64_eq_of_pos (x : ℚ) (e n : Int) (h1 : (2 : ℚ) ^ e ≤ x)
    (h2 : x < (2 : ℚ) ^ (e + 1)) (h3 : |x / 2 ^ (e - 52) - (n : ℚ)| < 1 / 2) :
    roundF64 x = (n : ℚ) * 2 ^ (e - 52) := by
  have hpos : (0 : ℚ) < x := lt_of_lt_of_le (zpow_pos (by norm_num) _) h1
  apply roundF64_eq_of x e n _ _ h3
  · rwa [abs_of_pos hpos]
  · rwa [abs_of_pos hpos]


/-! ## Claim C7: the average in `float64` arithmetic -/

theorem MinutesF64_whole (T : Int) (hT : |T| < 2 ^ 53) :
    Duration.MinutesF64 (T * Minute) = (T : ℚ) := by
  unfold Duration.MinutesF64
  rw [Int.mul_tdiv_cancel T (by decide : Minute ≠ 0), Int.mul_tmod_left]
  have h0 : roundF64 ((0 : Int) : ℚ) = 0 := by
    rw [roundF64_intCast 0 (by norm_num)]; norm_num
  rw [h0, zero_div, roundF64_of_isF64 0 isF64_zero, add_zero,
    roundF64_intCast T hT, roundF64_intCast T hT]

theorem averagePerMinuteF64_minuteRun (wallMinute : Time → Time) (t0 : Time) (T : Nat)
    (h0 : 0 < t0.ns) (hT : 0 < T) (hmax : (T : Int) * Minute ≤ maxDuration) :
    averagePerMinuteF64 (recordAll wallMinute initStats (minuteRun t0 (T + 1))) =
      F64.finite (roundF64 (((T : ℚ) + 1) / (T : ℚ))) := by
  have hM : Minute = 60000000000 := rfl
  have hTb : (T : Int) ≤ 153722867 := by
    unfold maxDuration at hmax
    rw [hM] at hmax
    omega
  have hc : (recordAll wallMinute initStats (minuteRun t0 (T + 1))).count = (T : Int) + 1 := by
    rw [recordAll_count_add, minuteRun_length]
    simp [initStats]
  have hs : (recordAll wallMinute initStats (minuteRun t0 (T + 1))).startedAt = t0 := by
    rw [minuteRun_succ, recordAll_cons]
    have hstep : (recordStep wallMinute initStats t0).startedAt = t0 := by
      rw [recordStep_startedAt]; rfl
    rw [recordAll_startedAt_of_set _ _ _
      (by rw [hstep]; exact IsZero_eq_false_of_pos t0 h0), hstep]
  have he := minuteRun_endedAt wallMinute t0 T h0 hT
  have hsub : (⟨t0.ns + (T : Int) * Minute⟩ : Time).Sub t0 = (T : Int) * Minute := by
    rw [Time.Sub_of_small]
    · simp
    · show minDuration ≤ t0.ns + (T : Int) * Minute - t0.ns
      unfold minDuration
      rw [hM]; omega
    · show t0.ns + (T : Int) * Minute - t0.ns ≤ maxDuration
      have : t0.ns + (T : Int) * Minute - t0.ns = (T : Int) * Minute := by ring
      rw [this]; exact hmax
  have hT' : (T : ℚ) ≠ 0 := by exact_mod_cast (Nat.pos_iff_ne_zero.mp hT)
  have hmin : Duration.MinutesF64 ((T : Int) * Minute) = ((T : Int) : ℚ) :=
    MinutesF64_whole T (by rw [abs_of_nonneg (by omega)]; omega)
  have hcnt : roundF64 (((T : Int) + 1 : Int) : ℚ) = (((T : Int) + 1 : Int) : ℚ) :=
    roundF64_intCast _ (by rw [abs_of_nonneg (by omega)]; omega)
  simp only [averagePerMinuteF64, hc, hs, he, hsub, hmin, hcnt, F64.divF64]
  push_cast
  rw [if_neg hT']

theorem one_lt_roundF64_ratio (T : Nat) (hT : 0 < T) (hTb : T ≤ 153722867) :
    1 < roundF64 (((T : ℚ) + 1) / (T : ℚ)) := by
  have ha : IsF64 (1 + 1 / 2 ^ 28) := by
    apply isF64_of_scaled _ (2 ^ 28 + 1) 28
    · norm_num
    · norm_num
  have hTpos : (0 : ℚ) < (T : ℚ) := by exact_mod_cast hT
  have hTle : (T : ℚ) ≤ 153722867 := by exact_mod_cast hTb
  have hx : (1 : ℚ) + 1 / 2 ^ 28 ≤ ((T : ℚ) + 1) / (T : ℚ) := by
    rw [le_div_iff₀ hTpos]
    have : (1 : ℚ) / 2 ^ 28 * (T : ℚ) ≤ 1 := by
      have : (1 : ℚ) / 2 ^ 28 * (T : ℚ) ≤ 1 / 2 ^ 28 * 153722867 :=
        mul_le_mul_of_nonneg_left hTle (by positivity)
      have h2 : (1 : ℚ) / 2 ^ 28 * 153722867 ≤ 1 := by norm_num
      linarith
    linarith
  have := le_roundF64 _ _ ha hx
  have h28 : (0 : ℚ) < 1 / 2 ^ 28 := by positivity
  linarith

/-- C7 (the average is not 1): for events one per minute at epoch milliseconds
`0` and `60000`, two events one minute apart, `averagePerMinute` is `2`, in
exact and in `float64` arithmetic. -/
theorem average_of_two_events_is_two :
    averagePerMinute (recordAll sameZoneMinute initStats (minuteRun (eventTime 0) 2)) =
      F64.finite 2 ∧
    averagePerMinute (recordAll sameZoneMinute initStats (minuteRun (eventTime 0) 2)) ≠
      F64.finite 1 ∧
    averagePerMinuteF64 (recordAll sameZoneMinute initStats (minuteRun (eventTime 0) 2)) =
      F64.finite 2 ∧
    averagePerMinuteF64 (recordAll sameZoneMinute initStats (minuteRun (eventTime 0) 2)) ≠
      F64.finite 1 := by
  have hv : averagePerMinute (recordAll sameZoneMinute initStats (minuteRun (eventTime 0) 2)) =
      F64.finite 2 := by
    rw [eventTime_0, averagePerMinute_minuteRun sameZoneMinute (Time.Unix 0 0) 1
      (by decide) (by decide) (by decide)]
    norm_num
  have hw : averagePerMinuteF64
      (recordAll sameZoneMinute initStats (minuteRun (eventTime 0) 2)) = F64.finite 2 := by
    rw [eventTime_0, averagePerMinuteF64_minuteRun sameZoneMinute (Time.Unix 0 0) 1
      (by decide) (by decide) (by decide)]
    have h2 : (((1 : Nat) : ℚ) + 1) / ((1 : Nat) : ℚ) = ((2 : Int) : ℚ) := by norm_num
    rw [h2, roundF64_intCast 2 (by norm_num)]
    norm_num
  rw [hv, hw]
  have hne : F64.finite 2 ≠ F64.finite 1 := by
    intro h
    injection h with h
    norm_num at h
  exact ⟨rfl, hne, rfl, hne⟩

/-- C7 as amended (P6): for every `T > 0` (short of the range of `Duration`),
after recording the `T + 1` events spaced one per minute over `T` minutes from
`initStats`, the first of them after the zero time, `averagePerMinute`,
computed in `float64` arithmetic, is `(T + 1) / T` rounded to `float64`:
`count` includes the first event, the elapsed time is `T` minutes.  That value
is greater than 1 and differs from `(T + 1) / T` by at most `2^-53` of it. -/
theorem average_one_per_minute (wallMinute : Time → Time) (t0 : Time) (T : Nat)
    (h0 : 0 < t0.ns) (hT : 0 < T) (hmax : (T : Int) * Minute ≤ maxDuration) :
    averagePerMinuteF64 (recordAll wallMinute initStats (minuteRun t0 (T + 1))) =
      F64.finite (roundF64 (((T : ℚ) + 1) / (T : ℚ))) ∧
    1 < roundF64 (((T : ℚ) + 1) / (T : ℚ)) ∧
    |roundF64 (((T : ℚ) + 1) / (T : ℚ)) - ((T : ℚ) + 1) / (T : ℚ)| ≤
      (((T : ℚ) + 1) / (T : ℚ)) / 2 ^ 53 := by
  have hM : Minute = 60000000000 := rfl
  have hTb : T ≤ 153722867 := by
    unfold maxDuration at hmax
    rw [hM] at hmax
    omega
  refine ⟨averagePerMinuteF64_minuteRun wallMinute t0 T h0 hT hmax,
    one_lt_roundF64_ratio T hT hTb, ?_⟩
  have h := roundF64_rel_error (((T : ℚ) + 1) / (T : ℚ))
  have hpos : (0 : ℚ) ≤ ((T : ℚ) + 1) / (T : ℚ) := by positivity
  rwa [abs_of_nonneg hpos] at h

/-- The amended C7 for three minutes from the Unix epoch: four events, and
the `float64` nearest to `4 / 3`, which is `6004799503160661 / 2^52`. -/
theorem average_one_per_minute_witness :
    averagePerMinuteF64
        (recordAll sameZoneMinute initStats (minuteRun (Time.Unix 0 0) (3 + 1))) =
      F64.finite (6004799503160661 / 4503599627370496) := by
  rw [(average_one_per_minute sameZoneMinute (Time.Unix 0 0) 3 (by decide) (by decide)
    (by decide)).1]
  have h : roundF64 ((((3 : Nat) : ℚ) + 1) / ((3 : Nat) : ℚ)) =
      6004799503160661 / 4503599627370496 := by
    rw [roundF64_eq_of_pos _ 0 6004799503160661 (by norm_num) (by norm_num)
      (by norm_num [abs_lt])]
    norm_num
  rw [h]

/-! ## Claim C17: the bucket key in `float64` arithmetic -/

/-- C17 (the key is not a floor): with a first event at second 60 and a second
event at second 30, `endedAt` is 30 seconds earlier than `startedAt`, the
elapsed time is `-0.5` minutes, the floor is `-1`, and `saveHistory` files the
event under key `0`, in exact and in `float64` arithmetic. -/
theorem bucket_key_truncates :
    ((maxTime (eventTime 30000)
        (recordAll sameZoneMinute initStats [eventTime 60000]).endedAt).Sub
      (recordAll sameZoneMinute initStats [eventTime 60000]).startedAt) = -30000000000 ∧
    ⌊((-30000000000 : Int) : ℚ) / (Minute : ℚ)⌋ = -1 ∧
    bucketKey (recordAll sameZoneMinute initStats [eventTime 60000]) (eventTime 30000) = 0 ∧
    (recordAll sameZoneMinute initStats [eventTime 60000, eventTime 30000]).history =
      [(0, 1)] ∧
    minutesElapsedF64
      { count := 2, startedAt := eventTime 60000, endedAt := eventTime 30000, min := MaxInt32,
        max := 0, history := [], distribution := [] } = 0 := by
  refine ⟨?_, ?_, ?_, ?_, ?_⟩
  · simp only [eventTime_30000, eventTime_60000, recordAll_eq_int]
    decide
  · rw [floor_div_minute]
    decide
  · rw [bucketKey_eq_int]
    simp only [eventTime_30000, eventTime_60000, recordAll_eq_int]
    decide
  · simp only [eventTime_30000, eventTime_60000, recordAll_eq_int]
    decide
  · simp only [eventTime_30000, eventTime_60000]
    rw [minutesElapsedF64_eq _ (by decide) (by decide), minutesElapsed_eq_int]
    decide

/-- C17 as amended: for every state whose elapsed time `endedAt - startedAt`
is less than `2^18` minutes in absolute value, the key `saveHistory` uses,
computed in `float64` arithmetic, is the elapsed time divided by one minute and
truncated toward zero; it equals `floor((endedAt - startedAt) / 1 minute)` when
`endedAt` is not earlier than `startedAt` or the elapsed time is a whole number
of minutes, and it is that floor plus one when the elapsed time is a negative
non-whole number of minutes. -/
theorem bucket_key_is_truncation (wallMinute : Time → Time) (s : Stats)
    (h1 : -(262144 * Minute) < s.endedAt.Sub s.startedAt)
    (h2 : s.endedAt.Sub s.startedAt < 262144 * Minute) :
    minutesElapsedF64 s = minutesElapsed s ∧
    saveHistoryF64 wallMinute s =
      resetIfFull (updateBucket wallMinute s (minutesElapsedF64 s)) ∧
    saveHistoryF64 wallMinute s = saveHistory wallMinute s ∧
    minutesElapsedF64 s = (s.endedAt.Sub s.startedAt).tdiv Minute ∧
    (0 ≤ s.endedAt.Sub s.startedAt →
      minutesElapsedF64 s = ⌊((s.endedAt.Sub s.startedAt : Int) : ℚ) / (Minute : ℚ)⌋) ∧
    ((s.endedAt.Sub s.startedAt) % Minute = 0 →
      minutesElapsedF64 s = ⌊((s.endedAt.Sub s.startedAt : Int) : ℚ) / (Minute : ℚ)⌋) ∧
    (s.endedAt.Sub s.startedAt < 0 → (s.endedAt.Sub s.startedAt) % Minute ≠ 0 →
      minutesElapsedF64 s =
        ⌊((s.endedAt.Sub s.startedAt : Int) : ℚ) / (Minute : ℚ)⌋ + 1) := by
  have he := minutesElapsedF64_eq s h1 h2
  refine ⟨he, rfl, ?_, ?_⟩
  · unfold saveHistoryF64
    rw [he]
    rfl
  · rw [he]
    exact minutesElapsed_spec s

/-- The amended C17 on the state of the second event when it is 30 seconds
older than the first: elapsed time `-0.5` minutes, key `0`. -/
theorem bucket_key_is_truncation_witness :
    minutesElapsedF64
      { count := 2, startedAt := Time.Unix 60 0, endedAt := Time.Unix 30 0, min := MaxInt32,
        max := 0, history := [], distribution := [] } = (-30000000000 : Int).tdiv Minute :=
  (bucket_key_is_truncation sameZoneMinute
    { count := 2, startedAt := Time.Unix 60 0, endedAt := Time.Unix 30 0, min := MaxInt32,
      max := 0, history := [], distribution := [] } (by decide) (by decide)).2.2.2.1

/-- Beyond `2^18` minutes the `float64` sum can round up across a minute
boundary: one nanosecond short of 262145 minutes the machine key is 262145,
the truncated quotient 262144. -/
theorem bucket_key_rounds_up_beyond_bound :
    (Time.Unix 15728700 0).Sub (Time.Unix 0 1) = 15728699999999999 ∧
    (15728699999999999 : Int).tdiv Minute = 262144 ∧
    minutesElapsedF64
      { count := 2, startedAt := Time.Unix 0 1, endedAt := Time.Unix 15728700 0,
        min := MaxInt32, max := 0, history := [], distribution := [] } = 262145 := by
  refine ⟨by decide, by decide, ?_⟩
  have hs : (Time.Unix 15728700 0).Sub (Time.Unix 0 1) = 15728699999999999 := by decide
  have hq : (15728699999999999 : Int).tdiv Minute = 262144 := by decide
  have hr : (15728699999999999 : Int).tmod Minute = 59999999999 := by decide
  have r1 : roundF64 ((59999999999 : ℚ) / 60000000000) =
      1125899906823859 / 1125899906842624 := by
    rw [roundF64_eq_of_pos _ (-1) 9007199254590872 (by norm_num) (by norm_num)
      (by norm_num [abs_lt])]
    norm_num
  have r2 : roundF64 ((262144 : ℚ) + 1125899906823859 / 1125899906842624) = 262145 := by
    rw [roundF64_eq_of_pos _ 18 4503616807239680 (by norm_num) (by norm_num)
      (by norm_num [abs_lt])]
    norm_num
  have c1 : roundF64 ((262144 : Int) : ℚ) = 262144 := by
    rw [roundF64_intCast _ (by norm_num)]; norm_num
  have c2 : roundF64 ((59999999999 : Int) : ℚ) = 59999999999 := by
    rw [roundF64_intCast _ (by norm_num)]; norm_num
  have hc : (60 : ℚ) * 1000000000 = 60000000000 := by norm_num
  show truncInt (Duration.MinutesF64 ((Time.Unix 15728700 0).Sub (Time.Unix 0 1))) = 262145
  rw [hs]
  unfold Duration.MinutesF64
  rw [hq, hr, c1, c2, hc, r1, r2]
  have : ((262145 : Int) : ℚ) = 262145 := by norm_num
  rw [← this, truncInt_intCast]

/-! ## The instant of an event in binary64 arithmetic -/

/-- On a timestamp of whole seconds (below `2^53` seconds in absolute value)
the binary64 computation of line 111 is exact: it gives the instant of the
exact model. -/
theorem eventTimeF64_whole_seconds (k : Int) (hk : |k| < 2 ^ 53) :
    eventTimeF64 (1000 * (k : ℚ)) = eventTime (1000 * (k : ℚ)) ∧
      eventTime (1000 * (k : ℚ)) = Time.Unix k 0 := by
  have e : (1000 * (k : ℚ)) / 1000 = (k : ℚ) := by field_simp
  unfold eventTimeF64 eventTime timeFromFloat64F64 timeFromFloat64
  simp only [e, roundF64_intCast k hk, truncInt_intCast, sub_self, zero_mul]
  have z : roundF64 0 = 0 := roundF64_of_isF64 0 isF64_zero
  have t0 : truncInt 0 = 0 := by
    have := truncInt_intCast 0
    simpa using this
  simp [z, t0]

/-- Off the whole seconds the binary64 computation loses nanoseconds: the
timestamp 1586962800123 ms gives 122999906 ns past the second, the exact model
123000000 ns. -/
theorem eventTimeF64_fraction :
    eventTimeF64 1586962800123 = Time.Unix 1586962800 122999906 ∧
      eventTime 1586962800123 = Time.Unix 1586962800 123000000 := by
  have e1 : roundF64 (1586962800123 / 1000) = 6656204420407099 / 4194304 := by
    rw [roundF64_eq_of_pos _ 30 6656204420407099 (by norm_num) (by norm_num)
      (by norm_num [abs_lt])]
    norm_num
  have f1 : truncInt (6656204420407099 / 4194304) = 1586962800 := by
    unfold truncInt
    rw [if_pos (by norm_num)]
    rw [Int.floor_eq_iff]
    norm_num
  have e2 : roundF64 ((1586962800 : Int) : ℚ) = 1586962800 := by
    rw [roundF64_intCast _ (by norm_num)]
    norm_num
  have e3 : roundF64 (6656204420407099 / 4194304 - 1586962800) = 515899 / 4194304 := by
    rw [roundF64_eq_of_pos _ (-4) 8863077332156416 (by norm_num) (by norm_num)
      (by norm_num [abs_lt])]
    norm_num
  have e4 : roundF64 (515899 / 4194304 * 1000000000) = 1007615234375 / 8192 := by
    rw [roundF64_eq_of_pos _ 26 8254384000000000 (by norm_num) (by norm_num)
      (by norm_num [abs_lt])]
    norm_num
  have f2 : truncInt (1007615234375 / 8192) = 122999906 := by
    unfold truncInt
    rw [if_pos (by norm_num)]
    rw [Int.floor_eq_iff]
    norm_num
  have g1 : truncInt (1586962800123 / 1000) = 1586962800 := by
    unfold truncInt
    rw [if_pos (by norm_num)]
    rw [Int.floor_eq_iff]
    norm_num
  have g2 : truncInt ((1586962800123 / 1000 - ((1586962800 : Int) : ℚ)) * 1000000000) =
      123000000 := by
    have : (1586962800123 / 1000 - ((1586962800 : Int) : ℚ)) * 1000000000 =
        ((123000000 : Int) : ℚ) := by norm_num
    rw [this, truncInt_intCast]
  constructor
  · unfold eventTimeF64 timeFromFloat64F64
    simp only [e1, f1, e2, e3, e4, f2]
  · unfold eventTime timeFromFloat64
    simp only [g1, g2]

/-! ## Claim C18: the new-bucket step and the timestamp it appends -/

theorem Date_fixedZone (wall offset : Int) :
    Date wall (fixedZone offset) = Time.Unix (wall - offset) 0 := by
  unfold Date fixedZone
  by_cases h : offset = 0
  · simp [h]
  · simp only [ne_eq, h, not_false_eq_true, if_true]
    split <;> rfl

/-- Between two fixed zones, the first with a whole-minute offset, lines 92
and 93 give the instant truncated to the minute, moved by the difference of the
two offsets. -/
theorem minuteIn_fixedZone (a b : Int) (t : Time) (ha : a % 60 = 0) :
    minuteIn (fixedZone a) (fixedZone b) t =
      ⟨(sameZoneMinute t).ns + (a - b) * 1000000000⟩ := by
  unfold minuteIn
  rw [Date_fixedZone]
  unfold Time.wallClockMinute Time.unixSec Time.Unix sameZoneMinute unixToInternal Minute
    fixedZone
  simp only
  congr 1
  omega

/-- When the process runs in the reference zone and its offset is a whole
number of minutes, lines 92 and 93 truncate the instant to the minute. -/
theorem minuteIn_same_fixedZone (a : Int) (t : Time) (ha : a % 60 = 0) :
    minuteIn (fixedZone a) (fixedZone a) t = sameZoneMinute t := by
  rw [minuteIn_fixedZone a a t ha]
  simp

/-- The minute-truncated instant: the latest whole minute not after `t`. -/
theorem sameZoneMinute_spec (t : Time) :
    (sameZoneMinute t).ns % Minute = 0 ∧ (sameZoneMinute t).ns ≤ t.ns ∧
      t.ns < (sameZoneMinute t).ns + Minute := by
  unfold sameZoneMinute Minute
  simp only
  omega

/-- In the hour repeated at the end of daylight saving time the rebuilt date
is the first of the two instants with that wall-clock reading, also when the
process runs in the reference zone: 01:30 PST on 1 November 2020 (09:30 UTC)
becomes 01:30 PDT (08:30 UTC). -/
theorem fall_back_hour_is_moved :
    minuteIn pacific2020 pacific2020 (Time.Unix 1604223000 0) = Time.Unix 1604219400 0 ∧
    sameZoneMinute (Time.Unix 1604223000 0) = Time.Unix 1604223000 0 := by
  decide

/-- C18 (the appended timestamp is not `endedAt` truncated to the minute):
with the process in UTC and the reference zone at UTC-8, the new-bucket step in
the state of an event at 00:03:00 UTC (histogram holding minutes 1 and 2, so
the new key is 3 and `c = history[2] = 1`) appends 08:03:00 UTC to
`distribution[1]`, whereas `endedAt` truncated to the minute is 00:03:00 UTC. -/
theorem appended_timestamp_is_shifted :
    thirdMinuteState.history.get? 3 = none ∧
    (updateBucket (minuteIn utcZone pacificStandard) thirdMinuteState 3).distribution =
      [(1, [Time.Unix 28980 0])] ∧
    sameZoneMinute thirdMinuteState.endedAt = Time.Unix 180 0 ∧
    Time.Unix 28980 0 ≠ sameZoneMinute thirdMinuteState.endedAt := by
  decide

/-- C18 as amended (new-bucket step): for every state in which `history` has
no entry for the current key `m` (in `saveHistory`, `m = minutesElapsed`), the
bucket update (the state before the length-60 clear) sets `history[m] = 1`
and leaves the other keys unchanged; if `history` held more than one key it
takes `c = history[m-1]` (`0` when absent), sets `max := max(c, max)`,
`min := min(c, min)` and appends exactly one timestamp to `distribution[c]`,
leaving the other keys alone: the instant that `time.Date` builds in the
reference zone from the wall-clock date, hour and minute that `endedAt` shows
in the zone of the process, with zero seconds.  Between zones of fixed offsets
`a` (process, a whole number of minutes) and `b` (reference) that instant is
`endedAt` truncated to the minute plus `a - b` seconds, so it is `endedAt`
truncated to the minute (the latest whole minute not after `endedAt`) when the
process runs in the reference zone.  If `history` held at most one key, `min`,
`max` and `distribution` are unchanged. -/
theorem new_bucket_step (localZone loc : Location) (s : Stats) (m : Int)
    (h : s.history.get? m = none) :
    (m = minutesElapsed s →
      saveHistory (minuteIn localZone loc) s =
        resetIfFull (updateBucket (minuteIn localZone loc) s m)) ∧
    (updateBucket (minuteIn localZone loc) s m).history.get? m = some 1 ∧
    (∀ k, k ≠ m →
      (updateBucket (minuteIn localZone loc) s m).history.get? k = s.history.get? k) ∧
    (s.history.len > 1 →
      (updateBucket (minuteIn localZone loc) s m).max = max (s.history.count (m - 1)) s.max ∧
      (updateBucket (minuteIn localZone loc) s m).min = min (s.history.count (m - 1)) s.min ∧
      (updateBucket (minuteIn localZone loc) s m).distribution.times (s.history.count (m - 1)) =
        s.distribution.times (s.history.count (m - 1)) ++
          [Date (s.endedAt.wallClockMinute localZone) loc] ∧
      (∀ k, k ≠ s.history.count (m - 1) →
        (updateBucket (minuteIn localZone loc) s m).distribution.get? k =
          s.distribution.get? k) ∧
      (updateBucket (minuteIn localZone loc) s m).distribution.totalLength =
        s.distribution.totalLength + 1 ∧
      (∀ a b : Int, a % 60 = 0 → localZone = fixedZone a → loc = fixedZone b →
        Date (s.endedAt.wallClockMinute localZone) loc =
          ⟨(sameZoneMinute s.endedAt).ns + (a - b) * 1000000000⟩) ∧
      (∀ a : Int, a % 60 = 0 → localZone = fixedZone a → loc = fixedZone a →
        Date (s.endedAt.wallClockMinute localZone) loc = sameZoneMinute s.endedAt ∧
        (sameZoneMinute s.endedAt).ns % Minute = 0 ∧
        (sameZoneMinute s.endedAt).ns ≤ s.endedAt.ns ∧
        s.endedAt.ns < (sameZoneMinute s.endedAt).ns + Minute)) ∧
    (s.history.len ≤ 1 →
      (updateBucket (minuteIn localZone loc) s m).min = s.min ∧
      (updateBucket (minuteIn localZone loc) s m).max = s.max ∧
      (updateBucket (minuteIn localZone loc) s m).distribution = s.distribution) := by
  refine ⟨?_, ?_, ?_, ?_, ?_⟩
  · intro hm
    rw [hm]
    rfl
  · by_cases hl : s.history.len > 1
    · rw [updateBucket_of_none_of_gt _ _ _ h hl]
      exact GoMap.get?_set_self _ _ _
    · rw [updateBucket_of_none_of_le _ _ _ h (not_lt.mp hl)]
      exact GoMap.get?_set_self _ _ _
  · intro k hk
    by_cases hl : s.history.len > 1
    · rw [updateBucket_of_none_of_gt _ _ _ h hl]
      exact GoMap.get?_set_ne _ _ _ _ hk
    · rw [updateBucket_of_none_of_le _ _ _ h (not_lt.mp hl)]
      exact GoMap.get?_set_ne _ _ _ _ hk
  · intro hl
    rw [updateBucket_of_none_of_gt _ _ _ h hl]
    refine ⟨rfl, rfl, ?_, ?_, ?_, ?_, ?_⟩
    · show (GoMap.set _ _ _).times _ = _
      rw [GoMap.times_set_append, if_pos rfl]
      rfl
    · intro k hk
      exact GoMap.get?_set_ne _ _ _ _ hk
    · exact GoMap.totalLength_set_append _ _ _
    · intro a b ha hla hlb
      rw [hla, hlb]
      exact minuteIn_fixedZone a b s.endedAt ha
    · intro a ha hla hlb
      rw [hla, hlb]
      exact ⟨minuteIn_same_fixedZone a s.endedAt ha, sameZoneMinute_spec s.endedAt⟩
  · intro hl
    rw [updateBucket_of_none_of_le _ _ _ h hl]
    exact ⟨rfl, rfl, rfl⟩

/-- C18 on the state in which `saveHistory` runs for an event at minute 3,
the histogram holding minutes 1 and 2, the process in the reference zone
(UTC-8): the key 3 is new, and the timestamp appended to `distribution[1]` is
`endedAt` truncated to the minute. -/
theorem new_bucket_step_witness :
    thirdMinuteState.history.get? 3 = none ∧
    (updateBucket (minuteIn pacificStandard pacificStandard) thirdMinuteState 3).history.get? 3 =
      some 1 ∧
    Date (thirdMinuteState.endedAt.wallClockMinute pacificStandard) pacificStandard =
      sameZoneMinute thirdMinuteState.endedAt :=
  ⟨by decide,
    (new_bucket_step pacificStandard pacificStandard thirdMinuteState 3 (by decide)).2.1,
    ((new_bucket_step pacificStandard pacificStandard thirdMinuteState 3 (by decide)).2.2.2.1
      (by decide)).2.2.2.2.2.2 (-28800) (by decide) rfl rfl |>.1⟩

end WebSocketEvents
